import Mathlib

/-!
Verification of the BrandSnap dual-pass page analyzer
(`src/src-tauri/src/lib.rs`) against its natural-language specification.

The embedding covers:
* the URL normalizer `normalize_image_url` (lines 364-388), with the five
  `regex_lite` patterns hand-compiled to character-list scanners that
  reproduce leftmost-first, replace-first-occurrence semantics;
* the raw-markup extraction pass `server_side_scrape` (lines 73-300),
  modelled on an already-parsed document (`ScrapeDoc`); the HTML parsing,
  HTTP transport and `url` crate are external collaborators, the latter
  modelled by `urlJoinChars`;
* the merge stage and result assembly of `analyze_page` (lines 338-443),
  with the browser/server outcomes as explicit inputs;
* the pending-callback slot (`AppState.pending_analysis`, lines 51-53,
  61-69, 312-318) as a small transition system.
-/

/-! ## Character and list helpers -/

/-- UTF-8 byte length of a character list; models Rust `str::len`. -/
def byteLen (l : List Char) : Nat := l.foldl (fun n c => n + c.utf8Size) 0

/-- `hasPre p l` is true when `p` is an initial segment of `l`;
models Rust `str::starts_with`. -/
def hasPre : List Char → List Char → Bool
  | [], _ => true
  | _ :: _, [] => false
  | p :: ps, c :: cs => p == c && hasPre ps cs

/-- `hasSuf s l` is true when `s` is a final segment of `l`;
models Rust `str::ends_with`. -/
def hasSuf (s l : List Char) : Bool := hasPre s.reverse l.reverse

/-- Does `needle` occur as a contiguous substring of `hay`?
Models Rust `str::contains`. -/
def containsSub (needle : List Char) : List Char → Bool
  | [] => hasPre needle []
  | c :: cs => hasPre needle (c :: cs) || containsSub needle cs

/-- The initial segment of `l` strictly before the first occurrence of `c`;
models Rust `s.split(c).next().unwrap_or("")`. -/
def beforeChar (c : Char) (l : List Char) : List Char := l.takeWhile (· ≠ c)

/-- Rust `char`-pattern `split`: splits at every occurrence of `sep`,
keeping empty segments (`"".split(c) = [""]`). -/
def splitChar (sep : Char) : List Char → List (List Char)
  | [] => [[]]
  | c :: rest =>
    if c = sep then [] :: splitChar sep rest
    else
      match splitChar sep rest with
      | [] => [[c]]
      | seg :: segs => (c :: seg) :: segs

/-- Worker for the Rust substring `split`: splits at every non-overlapping
occurrence of the (nonempty) `needle`, scanning left to right.  The fuel
argument — one unit per consumed character, started at the hay's length —
makes the recursion structural; since every step consumes at least one
character, the fuel never runs out before the hay does. -/
def splitOnSubGo (needle : List Char) : Nat → List Char → List (List Char)
  | _, [] => [[]]
  | 0, l => [l]
  | fuel + 1, c :: rest =>
    if needle ≠ [] ∧ hasPre needle (c :: rest) then
      match splitOnSubGo needle fuel (rest.drop (needle.length - 1)) with
      | [] => [[], []]
      | segs => [] :: segs
    else
      match splitOnSubGo needle fuel rest with
      | [] => [[c]]
      | seg :: segs => (c :: seg) :: segs

/-- Rust substring `split` (`"".split(p) = [""]`; non-overlapping,
left to right). -/
def splitOnSub (needle hay : List Char) : List (List Char) :=
  splitOnSubGo needle hay.length hay

/-- Rust `str::replace`: replaces every non-overlapping occurrence of
`needle` (nonempty) by `repl`, left to right. -/
def replaceSub (needle repl hay : List Char) : List Char :=
  (splitOnSub needle hay).intersperse repl |>.flatten

/-- Rust `str::trim` (both ends); whitespace per `Char.isWhitespace`,
which agrees with Rust on the ASCII inputs considered here. -/
def trimChars (l : List Char) : List Char :=
  ((l.dropWhile Char.isWhitespace).reverse.dropWhile Char.isWhitespace).reverse

/-- Rust `str::trim_matches(c)`: strips every leading and trailing
occurrence of the single character `c`. -/
def trimMatch (c : Char) (l : List Char) : List Char :=
  ((l.dropWhile (· = c)).reverse.dropWhile (· = c)).reverse

/-- Length of the leading run of ASCII digits. -/
def digitRun (l : List Char) : Nat := (l.takeWhile Char.isDigit).length

/-! ## The `url` crate's join, modelled

`base_url.join(reference)` from the external `url` crate, restricted to the
reference shapes this program produces: an absolute reference (it has a
scheme) is serialized with its scheme lowercased — the crate implements
WHATWG URL parsing, which normalizes the scheme — and its remainder kept;
a protocol-relative `//…` reference adopts the
base's scheme; a root-relative `/…` reference is appended to the base's
origin; anything else is appended to the base's directory.  (The crate's
additional percent-encoding and dot-segment normalization is not exercised
by the inputs considered in this development.)  The code's
`unwrap_or_else(|_| reference)` fallback makes the operation total. -/

/-- Scheme-body characters per RFC 3986 (`ALPHA / DIGIT / + / - / .`). -/
def schemeLike (c : Char) : Bool := c.isAlphanum || c == '+' || c == '-' || c == '.'

/-- Does the reference begin with a `scheme:` prefix? -/
def hasScheme (r : List Char) : Bool :=
  match r with
  | c :: rest => c.isAlpha && hasPre [':'] (rest.dropWhile schemeLike)
  | [] => false

/-- The scheme of an absolute URL (characters before the first colon). -/
def schemeOf (b : List Char) : List Char := b.takeWhile (· ≠ ':')

/-- The origin `scheme://host` of an absolute URL. -/
def originOf (b : List Char) : List Char :=
  let s := schemeOf b
  s ++ ':' :: '/' :: '/' :: ((b.drop (s.length + 3)).takeWhile (· ≠ '/'))

/-- The base URL up to and including its last slash. -/
def dirOf (b : List Char) : List Char :=
  (b.reverse.dropWhile (· ≠ '/')).reverse

/-- The url crate's serialization of an absolute reference: the scheme
(the characters before the first colon) is lowercased, the rest kept. -/
def lowerScheme (r : List Char) : List Char :=
  (r.takeWhile (· ≠ ':')).map Char.toLower ++
    r.drop (r.takeWhile (· ≠ ':')).length

/-- Models `base_url.join(ref).map(|u| u.to_string()).unwrap_or(ref)`. -/
def urlJoinChars (base r : List Char) : List Char :=
  if hasScheme r then lowerScheme r
  else if hasPre ['/', '/'] r then schemeOf base ++ ':' :: r
  else if hasPre ['/'] r then originOf base ++ r
  else dirOf base ++ r

/-! ## Data model (lib.rs lines 8-53) -/

/-- `struct ImageInfo` (lines 15-21). -/
structure ImageInfo where
  src : String
  alt : String
  width : Nat
  height : Nat
deriving DecidableEq

/-- `struct TextBlock` (lines 23-27). -/
structure TextBlock where
  tag : String
  text : String
deriving DecidableEq

/-- `struct PageMetadata` (lines 8-13). -/
structure PageMetadata where
  title : String
  description : String
  favicon : String
deriving DecidableEq

/-- `struct BrowserAnalysis` (lines 30-39): the rendering pass's payload. -/
structure BrowserAnalysis where
  colors : List String
  fonts : List String
  images : List ImageInfo
  text_content : List TextBlock
  metadata : PageMetadata
deriving DecidableEq

/-- `struct AnalysisResult` (lines 42-49): the caller-facing output. -/
structure AnalysisResult where
  colors : List String
  fonts : List String
  images : List ImageInfo
  text_content : List TextBlock
  metadata : PageMetadata
deriving DecidableEq

/-! ## URL normalizer (lib.rs lines 364-388)

Each `regex_lite` pattern is compiled to a scanner `…At` giving, for a given
start position (the whole remaining suffix), the length of the match there
and the replacement text, or `none`.  `replaceFirst` then applies it at the
leftmost matching position only, which is `Regex::replace` semantics. -/

/-- Replace the leftmost match found by `f` (match length, replacement),
leaving the rest unchanged; models `Regex::replace` (first occurrence). -/
def replaceFirst (f : List Char → Option (Nat × List Char)) : List Char → List Char
  | [] => []
  | c :: rest =>
    match f (c :: rest) with
    | some (n, repl) => repl ++ (c :: rest).drop n
    | none => c :: replaceFirst f rest

/-- `(\.[a-zA-Z]+)$`: the suffix is a dot followed by one or more ASCII
letters reaching the end of the string; returns the captured suffix. -/
def extTail (l : List Char) : Option (List Char) :=
  match l with
  | c :: rest =>
    if c = '.' ∧ rest ≠ [] ∧ rest.all Char.isAlpha then some (c :: rest) else none
  | [] => none

/-- Pattern `[-_](cc_ft_|ft_)\d{2,4}` (match length; deleted). -/
def vendorAt (l : List Char) : Option (Nat × List Char) :=
  match l with
  | c :: rest =>
    if c = '-' ∨ c = '_' then
      if hasPre ("cc_ft_".data) rest then
        let k := min 4 (digitRun (rest.drop 6))
        if 2 ≤ k then some (1 + 6 + k, []) else none
      else if hasPre ("ft_".data) rest then
        let k := min 4 (digitRun (rest.drop 3))
        if 2 ≤ k then some (1 + 3 + k, []) else none
      else none
    else none
  | [] => none

/-- One greedy attempt for `-\d{2,4}x\d{2,4}` with `k` digits before `x`. -/
def wxhTry (rest : List Char) (k : Nat) : Option (Nat × List Char) :=
  if k ≤ digitRun rest then
    match rest.drop k with
    | c :: after =>
      if c = 'x' then
        let m := min 4 (digitRun after)
        if 2 ≤ m then some (1 + k + 1 + m, []) else none
      else none
    | [] => none
  else none

/-- Pattern `-\d{2,4}x\d{2,4}` (greedy, with backtracking over the first
digit count: 4, then 3, then 2). -/
def wxhAt (l : List Char) : Option (Nat × List Char) :=
  match l with
  | c :: rest =>
    if c = '-' then
      match wxhTry rest 4 with
      | some r => some r
      | none =>
        match wxhTry rest 3 with
        | some r => some r
        | none => wxhTry rest 2
    else none
  | [] => none

/-- Pattern `[-_]\d{3,4}(\.[a-zA-Z]+)$` replaced by `$1`
(greedy digit count: 4, then 3; anchored at the end). -/
def bareResAt (l : List Char) : Option (Nat × List Char) :=
  match l with
  | c :: rest =>
    if c = '-' ∨ c = '_' then
      match (if 4 ≤ digitRun rest then extTail (rest.drop 4) else none) with
      | some e => some (l.length, e)
      | none =>
        match (if 3 ≤ digitRun rest then extTail (rest.drop 3) else none) with
        | some e => some (l.length, e)
        | none => none
    else none
  | [] => none

/-- Pattern `@\dx(\.[a-zA-Z]+)$` replaced by `$1`. -/
def densityAt (l : List Char) : Option (Nat × List Char) :=
  match l with
  | c :: rest =>
    if c = '@' then
      match rest with
      | d :: c2 :: rest2 =>
        if d.isDigit ∧ c2 = 'x' then
          match extTail rest2 with
          | some e => some (l.length, e)
          | none => none
        else none
      | _ => none
    else none
  | [] => none

/-- The named-size alternatives, in the source's order. -/
def sizeNames : List (List Char) :=
  ["small".data, "medium".data, "large".data, "thumb".data, "thumbnail".data,
   "scaled".data, "preview".data, "mini".data, "full".data, "original".data]

/-- Try each named-size alternative (with regex backtracking: a name whose
continuation fails yields to the next alternative). -/
def namedTry (rest : List Char) : List (List Char) → Option (List Char)
  | [] => none
  | w :: ws =>
    if hasPre w rest then
      match extTail (rest.drop w.length) with
      | some e => some e
      | none => namedTry rest ws
    else namedTry rest ws

/-- Pattern `[-_](small|…|original)(\.[a-zA-Z]+)$` replaced by `$2`. -/
def namedAt (l : List Char) : Option (Nat × List Char) :=
  match l with
  | c :: rest =>
    if c = '-' ∨ c = '_' then
      match namedTry rest sizeNames with
      | some e => some (l.length, e)
      | none => none
    else none
  | [] => none

/-- `url.split('?').next()` then `.split('#').next()` (lines 366). -/
def stripQueryFragment (l : List Char) : List Char :=
  (l.takeWhile (· ≠ '?')).takeWhile (· ≠ '#')

/-- The five suffix-collapsing steps, in the source's priority order
(lines 370-381). -/
def patternSteps : List (List Char → List Char) :=
  [replaceFirst vendorAt, replaceFirst wxhAt, replaceFirst bareResAt,
   replaceFirst densityAt, replaceFirst namedAt]

/-- `normalize_image_url` on character lists (lines 364-388). -/
def normChars (l : List Char) : List Char :=
  patternSteps.foldl (fun acc f => f acc) (stripQueryFragment l)

/-- `fn normalize_image_url` (lines 364-388): the dedup key of a URL. -/
def normalize_image_url (s : String) : String := ⟨normChars s.data⟩

/-! ## Raw-markup pass (lib.rs lines 73-300)

`ScrapeDoc` is the parsed document as the `scraper` crate exposes it to
`server_side_scrape`: for each selector the code iterates, the relevant
attribute values in document order.  Candidate generation is separated from
the running `seen_urls` dedup; the guards that do not consult `seen_urls`
(emptiness, `data:`, extension, length) are part of candidate generation,
exactly as they are evaluated in the source. -/

/-- One `<img>` element: `alt`, parsed `width`/`height` (0 when absent or
unparsable), the values of whichever of the 14 enumerated source attributes
are present (in the fixed attribute order of lines 120-123), and the
`srcset` value when present. -/
structure ImgEl where
  alt : String
  width : Nat
  height : Nat
  attrVals : List String
  srcset : Option String
deriving DecidableEq

/-- The document as parsed by the external `scraper` crate: attribute values
in document order for each selector the code iterates.  `texts` are, for the
tag names of `textTags` in order, each matching element's space-joined text
(`el.text().collect::<Vec<_>>().join(" ")`). -/
structure ScrapeDoc where
  imgs : List ImgEl
  sources : List String
  anchors : List String
  metas : List String
  posters : List String
  styles : List String
  scripts : List String
  texts : List (List String)
deriving DecidableEq

/-- One source-attribute candidate of an `<img>` element (lines 124-135):
take before the first comma, trim, take before the first space; keep when
nonempty, resolve, and keep when not a `data:` URI. -/
def imgAttrCandidate (base : String) (alt : String) (w h : Nat) (v : String) : List ImageInfo :=
  let sc := beforeChar ' ' (trimChars (beforeChar ',' v.data))
  if sc = [] then []
  else
    let fu := urlJoinChars base.data sc
    if hasPre ("data:".data) fu then [] else [⟨⟨fu⟩, alt, w, h⟩]

/-- The candidates of one `srcset` value (lines 137-149 and 153-168):
for each comma-separated entry, trim and take the token before the first
space; keep when nonempty, resolve, and keep when not a `data:` URI. -/
def srcsetCandidates (base : String) (alt : String) (v : String) : List ImageInfo :=
  (splitChar ',' v.data).flatMap fun entry =>
    let sc := beforeChar ' ' (trimChars entry)
    if sc = [] then []
    else
      let fu := urlJoinChars base.data sc
      if hasPre ("data:".data) fu then [] else [⟨⟨fu⟩, alt, 0, 0⟩]

/-- All candidates of one `<img>` element (lines 113-151): every present
source attribute, then every `srcset` entry. -/
def imgCandidates (base : String) (el : ImgEl) : List ImageInfo :=
  (el.attrVals.flatMap (imgAttrCandidate base el.alt el.width el.height)) ++
    (match el.srcset with
     | some v => srcsetCandidates base el.alt v
     | none => [])

/-- The extension list of the `<a href>` strategy, in source order
(lines 176-177). -/
def anchorExts : List String :=
  [".jpg", ".jpeg", ".png", ".gif", ".webp", ".svg", ".avif"]

/-- The candidate of one `<a href>` value (lines 172-186): kept when the
lowercased href ends with a known image extension; no `data:` filter. -/
def anchorCandidate (base : String) (href : String) : List ImageInfo :=
  let lower := href.data.map Char.toLower
  if anchorExts.any (fun e => hasSuf e.data lower) then
    [⟨⟨urlJoinChars base.data href.data⟩, "", 0, 0⟩]
  else []

/-- The candidate of one social-preview `<meta>` content value
(lines 189-199): unconditional; no `data:` filter. -/
def metaCandidate (base : String) (content : String) : List ImageInfo :=
  [⟨⟨urlJoinChars base.data content.data⟩, "Social preview", 0, 0⟩]

/-- The candidate of one `<video poster>` value (lines 202-212):
unconditional; no `data:` filter. -/
def posterCandidate (base : String) (poster : String) : List ImageInfo :=
  [⟨⟨urlJoinChars base.data poster.data⟩, "Video poster", 0, 0⟩]

/-- The candidates of one inline `style` attribute (lines 215-236): when the
style mentions `background`, each `url(` argument up to the closing
parenthesis, trimmed of whitespace then of double then single quotes; kept
when nonempty, not a `data:` URI, and not containing `gradient`. -/
def styleCandidates (base : String) (style : String) : List ImageInfo :=
  if containsSub ("background".data) style.data then
    ((splitOnSub ("url(".data) style.data).drop 1).flatMap fun part =>
      if part.any (· = ')') then
        let src := trimMatch '\'' (trimMatch '"' (trimChars (part.takeWhile (· ≠ ')'))))
        if src ≠ [] ∧ ¬ hasPre ("data:".data) src ∧ ¬ containsSub ("gradient".data) src then
          [⟨⟨urlJoinChars base.data src⟩, "", 0, 0⟩]
        else []
      else []
  else []

/-- The extension list of the script scan, in source order (line 245). -/
def scriptExts : List String :=
  [".jpg", ".jpeg", ".png", ".gif", ".webp", ".avif", ".svg"]

/-- The candidates of one `<script>` text (lines 240-268): for script text
of byte length 10..=500000, split on double quotes and then on single
quotes; each token is trimmed and `\/` unescaped; tokens of byte length
11..=1999 whose lowercase form contains an image extension are accepted when
they begin with `http` (kept as is), `//` (prefixed with `https:`) or `/`
(resolved against the base). -/
def scriptCandidates (base : String) (t : String) : List ImageInfo :=
  let n := byteLen t.data
  if n < 10 ∨ 500000 < n then []
  else
    (splitChar '"' t.data ++ splitChar '\'' t.data).flatMap fun part =>
      let tr := replaceSub ("\\/".data) ("/".data) (trimChars part)
      let bn := byteLen tr
      if 10 < bn ∧ bn < 2000 then
        let lower := tr.map Char.toLower
        if scriptExts.any (fun e => containsSub e.data lower) then
          if hasPre ("http".data) tr ∨ hasPre ("//".data) tr then
            let u := if hasPre ("//".data) tr then "https:".data ++ tr else tr
            [⟨⟨u⟩, "", 0, 0⟩]
          else if hasPre ("/".data) tr then
            let fu := urlJoinChars base.data tr
            if fu ≠ [] then [⟨⟨fu⟩, "", 0, 0⟩] else []
          else []
        else []
      else []

/-- Every image candidate of the document, strategy by strategy in the
source's order (lines 109-268), before the running `seen_urls` dedup. -/
def docImageCandidates (base : String) (d : ScrapeDoc) : List ImageInfo :=
  d.imgs.flatMap (imgCandidates base) ++
  d.sources.flatMap (srcsetCandidates base "") ++
  d.anchors.flatMap (anchorCandidate base) ++
  d.metas.flatMap (metaCandidate base) ++
  d.posters.flatMap (posterCandidate base) ++
  d.styles.flatMap (styleCandidates base) ++
  d.scripts.flatMap (scriptCandidates base)

/-- The running `seen_urls` dedup (by literal resolved URL): skip a
candidate whose `src` was already seen, else record it and append
(lines 110, 129-131 and the analogous guards of every strategy). -/
def addUnique (st : List String × List ImageInfo) (i : ImageInfo) :
    List String × List ImageInfo :=
  if i.src ∈ st.1 then st else (i.src :: st.1, st.2 ++ [i])

/-- First-occurrence-per-literal-URL filter over the candidate stream. -/
def dedupBySrc (l : List ImageInfo) : List ImageInfo :=
  (l.foldl addUnique ([], [])).2

/-- The text tag list, in source order (line 276). -/
def textTags : List String :=
  ["h1", "h2", "h3", "h4", "h5", "h6", "p", "li", "blockquote", "figcaption"]

/-- Every text candidate: per tag in `textTags` order, each element's joined
text, trimmed, kept when its byte length is at least 3; tag uppercased
character by character, modelling `str::to_uppercase` on the ASCII tag
names (lines 278-291); all before the running `seen_text` dedup. -/
def docTextCandidates (d : ScrapeDoc) : List TextBlock :=
  (textTags.zip d.texts).flatMap fun p =>
    p.2.flatMap fun t =>
      let txt : String := ⟨trimChars t.data⟩
      if 3 ≤ byteLen txt.data then [⟨⟨p.1.data.map Char.toUpper⟩, txt⟩] else []

/-- The running `seen_text` dedup (by exact text), used by both the scrape
(lines 274, 282-283) and the merge stage (lines 410-426). -/
def addUniqueText (st : List String × List TextBlock) (b : TextBlock) :
    List String × List TextBlock :=
  if b.text ∈ st.1 then st else (b.text :: st.1, st.2 ++ [b])

/-- First-occurrence-per-text filter over the candidate stream. -/
def dedupByText (l : List TextBlock) : List TextBlock :=
  (l.foldl addUniqueText ([], [])).2

/-- `fn server_side_scrape` (lines 73-300), after the external fetch and
parse: the deduplicated image and text lists, each capped at 500
(lines 296-297). -/
def server_side_scrape (base : String) (d : ScrapeDoc) :
    List ImageInfo × List TextBlock :=
  ((dedupBySrc (docImageCandidates base d)).take 500,
   (dedupByText (docTextCandidates d)).take 500)

/-! ## Merge stage and result assembly (lib.rs lines 338-443) -/

/-- The merge stage's running dedup by normalized key (lines 390-408):
skip a candidate whose `normalize_image_url` key was already seen, else
record the key and append the candidate. -/
def addUniqueNorm (st : List String × List ImageInfo) (i : ImageInfo) :
    List String × List ImageInfo :=
  let n := normalize_image_url i.src
  if n ∈ st.1 then st else (n :: st.1, st.2 ++ [i])

/-- The merged image list (lines 390-408, 428): browser images first, then
server images, first occurrence per normalized key, truncated to 500. -/
def mergedImages (browser server : List ImageInfo) : List ImageInfo :=
  ((server.foldl addUniqueNorm (browser.foldl addUniqueNorm ([], []))).2).take 500

/-- The merged text list (lines 410-426, 429): browser fragments first, then
server fragments, first occurrence per exact text, truncated to 500. -/
def mergedText (browser server : List TextBlock) : List TextBlock :=
  ((server.foldl addUniqueText (browser.foldl addUniqueText ([], []))).2).take 500

/-- The outcome of awaiting the rendering pass (lines 338-343): the four
arms of the `tokio::time::timeout(…, rx)` match. -/
inductive BrowserOutcome
  | delivered (d : BrowserAnalysis)
  | failed (e : String)
  | closed
  | timedOut
deriving DecidableEq

/-- The outcome of awaiting the raw-markup task (lines 350-360): success,
scrape error, or task (join) failure. -/
inductive ServerOutcome
  | ok (r : List ImageInfo × List TextBlock)
  | err (e : String)
  | panicked (e : String)
deriving DecidableEq

/-- `fn analyze_page` from the resolution of both awaits to its return value
(lines 338-443): a failed rendering pass aborts with its error before the
server result is inspected; a failed server task degrades to empty lists;
otherwise the two passes are merged and colors, fonts and metadata pass
through from the rendering pass. -/
def analyze_page (b : BrowserOutcome) (s : ServerOutcome) :
    Except String AnalysisResult :=
  let browserResult : Except String BrowserAnalysis :=
    match b with
    | .delivered d => .ok d
    | .failed e => .error ("Analysis failed: " ++ e)
    | .closed => .error "Failed to receive analysis result (channel closed)"
    | .timedOut => .error "Analysis timed out (45s)"
  match browserResult with
  | .error e => .error e
  | .ok bd =>
    let sr := match s with
      | .ok r => r
      | .err _ => ([], [])
      | .panicked _ => ([], [])
    .ok { colors := bd.colors
          fonts := bd.fonts
          images := mergedImages bd.images sr.1
          text_content := mergedText bd.text_content sr.2
          metadata := bd.metadata }

/-- The successful result value of `analyze_page` for browser payload `bd`
and raw-markup pair `sr` (lines 437-443). -/
def analyzeOkResult (bd : BrowserAnalysis)
    (sr : List ImageInfo × List TextBlock) : AnalysisResult :=
  { colors := bd.colors
    fonts := bd.fonts
    images := mergedImages bd.images sr.1
    text_content := mergedText bd.text_content sr.2
    metadata := bd.metadata }

/-! ## The pending-callback slot (lib.rs lines 51-53, 61-69, 312-318)

`pending_analysis` holds at most one `oneshot::Sender`.  The only writes to
it in the whole program are the arm in `analyze_page` (lines 315-318,
`*pending = Some(tx)`) and the `take()` in `complete_analysis` (line 63).
Senders are numbered; a successful `tx.send` is recorded as a message on the
sender's channel, so that which invocation received which data is visible. -/

/-- The slot plus the history of successful channel sends. -/
structure SlotSys where
  pending_analysis : Option Nat
  sent : List (Nat × BrowserAnalysis)
deriving DecidableEq

/-- The initial state (line 489: `pending_analysis: … Mutex::new(None)`). -/
def initSlot : SlotSys := ⟨none, []⟩

/-- The arm step of `analyze_page` (lines 315-318): unconditionally replace
the slot's content with the new sender. -/
def armSlot (s : SlotSys) (tx : Nat) : SlotSys :=
  { pending_analysis := some tx, sent := s.sent }

/-- `fn complete_analysis` (lines 61-69): `take()` the slot; send into the
taken sender and report `Ok`, or report the no-pending error. -/
def complete_analysis (s : SlotSys) (d : BrowserAnalysis) :
    SlotSys × Except String Unit :=
  match s.pending_analysis with
  | some tx => ({ pending_analysis := none, sent := s.sent ++ [(tx, d)] }, .ok ())
  | none => (s, .error "No pending analysis found")

/-- The slot-relevant events of an execution: an `analyze_page` invocation
arming its fresh sender, or a `complete_analysis` callback arriving.  A
return of `analyze_page` (on any path: early error, timeout, failure or
success) performs no slot operation, so it contributes no event. -/
inductive SlotEv
  | arm (tx : Nat)
  | complete (d : BrowserAnalysis)
deriving DecidableEq

/-- Run a sequence of slot events, collecting each callback's result. -/
def runSlot : SlotSys → List SlotEv → SlotSys × List (Except String Unit)
  | s, [] => (s, [])
  | s, .arm tx :: evs => runSlot (armSlot s tx) evs
  | s, .complete d :: evs =>
    let p := complete_analysis s d
    let q := runSlot p.1 evs
    (q.1, p.2 :: q.2)

/-! ## Specification-side definitions

`dedupByNormKey` is the spec's description of the merge (§4.5): one pass
over the concatenated candidate list keeping the first occurrence per
normalized key.  It is compared with the source-derived `mergedImages`. -/

/-- First occurrence per `normalize_image_url` key, single list form. -/
def dedupByNormKey (seen : List String) : List ImageInfo → List ImageInfo
  | [] => []
  | i :: rest =>
    if normalize_image_url i.src ∈ seen then dedupByNormKey seen rest
    else i :: dedupByNormKey (normalize_image_url i.src :: seen) rest

/-- The seen-set after feeding a list to the normalized-key dedup. -/
def normSeenAfter (seen : List String) : List ImageInfo → List String
  | [] => seen
  | i :: rest =>
    if normalize_image_url i.src ∈ seen then normSeenAfter seen rest
    else normSeenAfter (normalize_image_url i.src :: seen) rest

/-- A replacement text of the shape `(\.[a-zA-Z]+)`: a dot followed by at
least one ASCII letter. -/
def extShape (e : List Char) : Prop :=
  ∃ a as, e = '.' :: a :: as ∧ (a :: as).all Char.isAlpha = true

/-- A scanner is tail-anchored when every match it reports extends to the
end of the string and merely deletes a nonempty segment standing
immediately before a final `.extension`. -/
def anchoredTail (f : List Char → Option (Nat × List Char)) : Prop :=
  ∀ t n r, f t = some (n, r) →
    n = t.length ∧ extShape r ∧ ∃ seg, seg ≠ [] ∧ t = seg ++ r

/-- Characters on which none of the five suffix patterns (nor the
query/fragment strip) can start: everything except `-`, `_`, `@`, `?`, `#`. -/
def plainChar (c : Char) : Bool :=
  !(c == '-' || c == '_' || c == '@' || c == '?' || c == '#')

/-- A URL carrying a `WIDTHxHEIGHT` resolution suffix before a `.jpg`
extension. -/
def wxhUrl (stem w h : List Char) : List Char :=
  stem ++ '-' :: (w ++ 'x' :: (h ++ ".jpg".data))

/-- The same URL without the resolution suffix. -/
def plainUrl (stem : List Char) : List Char := stem ++ ".jpg".data

/-! ## Concrete data for witnesses and counterexamples -/

/-- A sample rendering-pass payload. -/
def sampleBrowserData : BrowserAnalysis :=
  ⟨["#fff"], ["Arial"], [], [], ⟨"T", "", ""⟩⟩

/-- A rendering-pass payload with everything empty. -/
def plainBrowser : BrowserAnalysis := ⟨[], [], [], [], ⟨"", "", ""⟩⟩

/-- A document whose two `<img>` elements carry the same logical image at
two resolutions (distinct literal URLs, equal normalized keys). -/
def variantDoc : ScrapeDoc :=
  { imgs := [⟨"", 0, 0, ["https://x.com/photo-300x200.jpg"], none⟩,
             ⟨"", 0, 0, ["https://x.com/photo-768x512.jpg"], none⟩],
    sources := [], anchors := [], metas := [], posters := [], styles := [],
    scripts := [], texts := [] }

/-- A document whose social-preview metadata carries a `data:` URI. -/
def dataMetaDoc : ScrapeDoc :=
  { imgs := [], sources := [], anchors := [],
    metas := ["data:image/png;base64,iVBORw0KGgo"],
    posters := [], styles := [], scripts := [], texts := [] }

/-- A document whose inline style carries an uppercase-scheme `DATA:` URI:
the style strategy's `data:` filter runs case-sensitively BEFORE the join
(lib.rs line 224), so the candidate passes it, and the join then lowercases
the scheme. -/
def dataStyleDoc : ScrapeDoc :=
  { imgs := [], sources := [], anchors := [], metas := [], posters := [],
    styles := ["background:url(DATA:image/png;base64,AAAA)"],
    scripts := [], texts := [] }

/-- A document whose only text is a one-character, three-byte `<p>`. -/
def euroDoc : ScrapeDoc :=
  { imgs := [], sources := [], anchors := [], metas := [], posters := [],
    styles := [], scripts := [],
    texts := [[], [], [], [], [], [], ["€"], [], [], []] }

/-- A one-image document used to witness the data-URI theorem. -/
def oneImgDoc : ScrapeDoc :=
  { imgs := [⟨"logo", 0, 0, ["https://x.com/a.jpg"], none⟩],
    sources := [], anchors := [], metas := [], posters := [], styles := [],
    scripts := [], texts := [] }

/-! ## Merge-stage characterization -/

theorem foldl_addUniqueNorm (l : List ImageInfo) : ∀ seen acc,
    l.foldl addUniqueNorm (seen, acc) =
      (normSeenAfter seen l, acc ++ dedupByNormKey seen l) := by
  induction l with
  | nil => intro seen acc; simp [dedupByNormKey, normSeenAfter]
  | cons i rest ih =>
    intro seen acc
    simp only [List.foldl_cons, addUniqueNorm, dedupByNormKey, normSeenAfter]
    by_cases h : normalize_image_url i.src ∈ seen
    · simp only [if_pos h]
      exact ih seen acc
    · simp only [if_neg h, ih, List.append_assoc, List.singleton_append]

theorem dedupByNormKey_append (xs ys : List ImageInfo) : ∀ seen,
    dedupByNormKey seen (xs ++ ys) =
      dedupByNormKey seen xs ++ dedupByNormKey (normSeenAfter seen xs) ys := by
  induction xs with
  | nil => intro seen; simp [dedupByNormKey, normSeenAfter]
  | cons i rest ih =>
    intro seen
    rw [List.cons_append]
    by_cases h : normalize_image_url i.src ∈ seen
    · rw [dedupByNormKey, if_pos h, ih, dedupByNormKey, if_pos h,
        normSeenAfter, if_pos h]
    · rw [dedupByNormKey, if_neg h, ih, dedupByNormKey, if_neg h,
        normSeenAfter, if_neg h, List.cons_append]

theorem mergedImages_eq_dedup (b s : List ImageInfo) :
    mergedImages b s = (dedupByNormKey [] (b ++ s)).take 500 := by
  unfold mergedImages
  rw [foldl_addUniqueNorm, foldl_addUniqueNorm, dedupByNormKey_append]
  simp

/-- C1: the merged image list iterates rendering-pass images first, then
raw-markup images, keeps the first occurrence per normalized dedup key in
encounter order, and truncates to 500 (equivalently: it is the
first-occurrence filter of the concatenated lists, truncated); in
particular, for rendering list `[A, B]` and raw-markup list `[B', C]` with
`B'` and `B` sharing a key and `A`, `B`, `C` pairwise key-distinct, the
merge yields `[A, B, C]`. -/
theorem merge_order_stable :
    (∀ b s, mergedImages b s = (dedupByNormKey [] (b ++ s)).take 500) ∧
    (∀ A B B' C : ImageInfo,
      normalize_image_url B'.src = normalize_image_url B.src →
      normalize_image_url A.src ≠ normalize_image_url B.src →
      normalize_image_url C.src ≠ normalize_image_url A.src →
      normalize_image_url C.src ≠ normalize_image_url B.src →
      mergedImages [A, B] [B', C] = [A, B, C]) := by
  refine ⟨mergedImages_eq_dedup, ?_⟩
  intro A B B' C hBB hAB hCA hCB
  have hBA : normalize_image_url B.src ∉ [normalize_image_url A.src] := by
    simp only [List.mem_singleton]
    exact fun h => hAB h.symm
  have hB' : normalize_image_url B'.src ∈
      [normalize_image_url B.src, normalize_image_url A.src] := by
    simp [hBB]
  have hC : normalize_image_url C.src ∉
      [normalize_image_url B.src, normalize_image_url A.src] := by
    simp only [List.mem_cons, List.mem_singleton, List.not_mem_nil, or_false]
    rintro (h | h)
    · exact hCB h
    · exact hCA h
  rw [mergedImages_eq_dedup]
  show (dedupByNormKey [] [A, B, B', C]).take 500 = [A, B, C]
  rw [dedupByNormKey, if_neg (List.not_mem_nil _),
    dedupByNormKey, if_neg hBA,
    dedupByNormKey, if_pos hB',
    dedupByNormKey, if_neg hC,
    dedupByNormKey]
  exact List.take_of_length_le (by simp)

/-- Witness for the hypothesis-bearing part of `merge_order_stable`. -/
theorem merge_order_stable_witness :
    (normalize_image_url "https://x.com/photo-768x512.jpg" =
       normalize_image_url "https://x.com/photo-300x200.jpg" ∧
     normalize_image_url "https://x.com/a.jpg" ≠
       normalize_image_url "https://x.com/photo-300x200.jpg" ∧
     normalize_image_url "https://x.com/c.jpg" ≠
       normalize_image_url "https://x.com/a.jpg" ∧
     normalize_image_url "https://x.com/c.jpg" ≠
       normalize_image_url "https://x.com/photo-300x200.jpg") ∧
    mergedImages
        [⟨"https://x.com/a.jpg", "", 0, 0⟩, ⟨"https://x.com/photo-300x200.jpg", "", 0, 0⟩]
        [⟨"https://x.com/photo-768x512.jpg", "", 0, 0⟩, ⟨"https://x.com/c.jpg", "", 0, 0⟩] =
      [⟨"https://x.com/a.jpg", "", 0, 0⟩, ⟨"https://x.com/photo-300x200.jpg", "", 0, 0⟩,
       ⟨"https://x.com/c.jpg", "", 0, 0⟩] :=
  ⟨⟨by decide, by decide, by decide, by decide⟩,
   merge_order_stable.2 _ _ _ _ (by decide) (by decide) (by decide) (by decide)⟩

/-! ## Orchestrator error handling -/

/-- C7: when the rendering pass explicitly fails, its channel closes
without delivery, or its timeout elapses, `analyze_page` returns the error
identifying that failure, for every raw-markup outcome alike — the
raw-markup result is discarded and never merged into the error response. -/
theorem rendering_failure_fatal :
    (∀ e s, analyze_page (BrowserOutcome.failed e) s =
      .error ("Analysis failed: " ++ e)) ∧
    (∀ s, analyze_page BrowserOutcome.closed s =
      .error "Failed to receive analysis result (channel closed)") ∧
    (∀ s, analyze_page BrowserOutcome.timedOut s =
      .error "Analysis timed out (45s)") :=
  ⟨fun _ _ => rfl, fun _ => rfl, fun _ => rfl⟩

/-- C8: when the raw-markup fetch fails (scrape error) or its task dies
(join error) while the rendering pass succeeds, `analyze_page` still
succeeds; colors, fonts and metadata pass through from the rendering pass
unchanged, and the raw-markup pass contributes empty image and text lists
(the merged lists are exactly the deduplication of the rendering pass's
own lists). -/
theorem raw_markup_failure_nonfatal :
    ∀ (d : BrowserAnalysis) (e : String),
      analyze_page (BrowserOutcome.delivered d) (ServerOutcome.err e) =
        .ok { colors := d.colors, fonts := d.fonts,
              images := mergedImages d.images [],
              text_content := mergedText d.text_content [],
              metadata := d.metadata } ∧
      analyze_page (BrowserOutcome.delivered d) (ServerOutcome.panicked e) =
        .ok { colors := d.colors, fonts := d.fonts,
              images := mergedImages d.images [],
              text_content := mergedText d.text_content [],
              metadata := d.metadata } ∧
      mergedImages d.images [] = (dedupByNormKey [] d.images).take 500 := by
  intro d e
  refine ⟨rfl, rfl, ?_⟩
  rw [mergedImages_eq_dedup]
  simp

/-! ## Pending-slot discipline -/

/-- C9 counterexample: the claim says the slot is destroyed (emptied)
whenever the analysis call returns, on every return path.  The only slot
writes in lib.rs are the arm (lines 315-318) and `complete_analysis`'s
`take()` (line 63); no return path of `analyze_page` clears the slot.  So
after an invocation arms sender 1 and then returns via the timeout path
(contributing no further slot event), the slot still holds the stale
sender, and a subsequent fulfill is even accepted rather than rejected. -/
theorem slot_cleared_on_return_cex :
    (runSlot initSlot [SlotEv.arm 1]).1.pending_analysis ≠ none ∧
    (complete_analysis (runSlot initSlot [SlotEv.arm 1]).1 sampleBrowserData).2 =
      .ok () :=
  ⟨fun h => Option.noConfusion h, rfl⟩

/-- C9 (amended): the slot holds at most one armed sender — arming
unconditionally replaces the slot's content; fulfilling consumes it, so a
fulfill against an empty or already-consumed slot returns the
no-pending-request error without crashing; but the slot is NOT cleared when
the analysis call returns: a return path performs no slot operation, so
after an armed invocation returns unfulfilled the stale sender remains. -/
theorem slot_discipline (s s' : SlotSys) (tx : Nat) (d d' : BrowserAnalysis)
    (h : s.pending_analysis = none) (h' : s'.pending_analysis = some tx) :
    (∀ (u : SlotSys) (t : Nat), (armSlot u t).pending_analysis = some t) ∧
    complete_analysis s d = (s, .error "No pending analysis found") ∧
    complete_analysis s' d =
      ({ pending_analysis := none, sent := s'.sent ++ [(tx, d)] }, .ok ()) ∧
    (complete_analysis (complete_analysis s' d).1 d').2 =
      .error "No pending analysis found" ∧
    (runSlot initSlot [SlotEv.arm 1]).1.pending_analysis = some 1 := by
  refine ⟨fun u t => rfl, ?_, ?_, ?_, rfl⟩
  · simp [complete_analysis, h]
  · simp [complete_analysis, h']
  · simp [complete_analysis, h']

/-- Witness for `slot_discipline`. -/
theorem slot_discipline_witness :
    initSlot.pending_analysis = none ∧
    (armSlot initSlot 1).pending_analysis = some 1 ∧
    ((∀ (u : SlotSys) (t : Nat), (armSlot u t).pending_analysis = some t) ∧
     complete_analysis initSlot sampleBrowserData =
       (initSlot, .error "No pending analysis found") ∧
     complete_analysis (armSlot initSlot 1) sampleBrowserData =
       ({ pending_analysis := none,
          sent := (armSlot initSlot 1).sent ++ [(1, sampleBrowserData)] }, .ok ()) ∧
     (complete_analysis
        (complete_analysis (armSlot initSlot 1) sampleBrowserData).1
        sampleBrowserData).2 = .error "No pending analysis found" ∧
     (runSlot initSlot [SlotEv.arm 1]).1.pending_analysis = some 1) :=
  ⟨rfl, rfl,
   slot_discipline initSlot (armSlot initSlot 1) 1
     sampleBrowserData sampleBrowserData rfl rfl⟩

/-- C10 counterexample: the claim says a first invocation's late callback
(arriving after a second invocation replaced the slot) is rejected with the
no-pending-request error and cannot corrupt the second invocation.  In the
trace below, invocation 1 arms sender 1, invocation 2 arms sender 2
(replacing), then invocation 1's late callback runs `complete_analysis`:
it is ACCEPTED (`.ok ()`), and its payload is delivered into invocation 2's
channel (sender 2) — so invocation 2's rendering wait resolves with
invocation 1's data, and invocation 2 then returns a result built from that
stale payload. -/
theorem late_callback_cex :
    runSlot initSlot [SlotEv.arm 1, SlotEv.arm 2,
        SlotEv.complete sampleBrowserData] =
      ({ pending_analysis := none, sent := [(2, sampleBrowserData)] },
       [Except.ok ()]) ∧
    (runSlot initSlot [SlotEv.arm 1, SlotEv.arm 2,
        SlotEv.complete sampleBrowserData]).2 ≠
      [Except.error "No pending analysis found"] ∧
    analyze_page (BrowserOutcome.delivered sampleBrowserData)
        (ServerOutcome.ok ([], [])) =
      .ok ⟨["#fff"], ["Arial"], [], [], ⟨"T", "", ""⟩⟩ :=
  ⟨rfl, by intro h; simp [runSlot, complete_analysis, armSlot, initSlot] at h, rfl⟩

/-- C10 (amended): a late callback arriving while any sender is armed —
including the replacing invocation's fresh sender — is accepted and
delivers its (stale) payload into that sender's channel; it is rejected
with the no-pending-request error exactly when the slot is empty (for
example, after the new invocation's own callback already consumed it). -/
theorem late_callback_behavior (t1 t2 : Nat) (d : BrowserAnalysis) :
    runSlot initSlot [SlotEv.arm t1, SlotEv.arm t2, SlotEv.complete d] =
      ({ pending_analysis := none, sent := [(t2, d)] }, [Except.ok ()]) ∧
    (∀ s : SlotSys, s.pending_analysis = none →
      ∀ d' : BrowserAnalysis,
        complete_analysis s d' = (s, .error "No pending analysis found")) := by
  refine ⟨rfl, fun s hs d' => ?_⟩
  simp [complete_analysis, hs]

/-- Witness for `late_callback_behavior`. -/
theorem late_callback_behavior_witness :
    (runSlot initSlot [SlotEv.arm 1, SlotEv.arm 2,
        SlotEv.complete sampleBrowserData] =
      ({ pending_analysis := none, sent := [(2, sampleBrowserData)] },
       [Except.ok ()])) ∧
    initSlot.pending_analysis = none ∧
    complete_analysis initSlot sampleBrowserData =
      (initSlot, .error "No pending analysis found") :=
  ⟨(late_callback_behavior 1 2 sampleBrowserData).1, rfl,
   (late_callback_behavior 1 2 sampleBrowserData).2 initSlot rfl
     sampleBrowserData⟩

/-! ## Within-pass dedup discipline -/

theorem foldl_addUnique_inv (l : List ImageInfo) :
    ∀ st : List String × List ImageInfo,
      (∀ i ∈ st.2, i.src ∈ st.1) → (st.2.map (·.src)).Nodup →
      (∀ i ∈ (l.foldl addUnique st).2, i.src ∈ (l.foldl addUnique st).1) ∧
      ((l.foldl addUnique st).2.map (·.src)).Nodup := by
  induction l with
  | nil => intro st h1 h2; exact ⟨h1, h2⟩
  | cons i rest ih =>
    intro st h1 h2
    rw [List.foldl_cons]
    by_cases h : i.src ∈ st.1
    · rw [show addUnique st i = st from by simp [addUnique, h]]
      exact ih st h1 h2
    · rw [show addUnique st i = (i.src :: st.1, st.2 ++ [i]) from by
        simp [addUnique, h]]
      apply ih
      · intro j hj
        rcases List.mem_append.mp hj with hj | hj
        · exact List.mem_cons_of_mem _ (h1 j hj)
        · rw [List.mem_singleton.mp hj]
          exact List.mem_cons_self _ _
      · rw [List.map_append, List.nodup_append]
        refine ⟨h2, List.nodup_singleton _, ?_⟩
        intro a ha1 ha2
        rcases List.mem_map.mp ha1 with ⟨j, hj, rfl⟩
        have hji : j.src = i.src := by simpa using ha2
        exact h (hji ▸ h1 _ hj)
  

theorem scrape_pass_nodup (base : String) (doc : ScrapeDoc) :
    (((server_side_scrape base doc).1).map (·.src)).Nodup := by
  have hd : ((dedupBySrc (docImageCandidates base doc)).map (·.src)).Nodup :=
    (foldl_addUnique_inv (docImageCandidates base doc) ([], [])
      (by intro i hi; simp at hi) (by simp)).2
  show ((List.take 500 (dedupBySrc (docImageCandidates base doc))).map (·.src)).Nodup
  rw [List.map_take]
  exact List.Sublist.nodup (List.take_sublist _ _) hd

/-- C3 (amended): within the raw-markup pass, duplicates are detected by
the LITERAL resolved URL — each literal URL appears at most once in that
pass's list (first occurrence kept) — not by the normalized dedup key:
candidates that normalize to the same key but differ literally all remain
in the pass's list, and only the merge stage collapses them to the
first-discovered one. -/
theorem scrape_dedup_literal :
    (∀ (base : String) (doc : ScrapeDoc),
      (((server_side_scrape base doc).1).map (·.src)).Nodup) ∧
    (server_side_scrape "https://x.com/" variantDoc).1 =
      [⟨"https://x.com/photo-300x200.jpg", "", 0, 0⟩,
       ⟨"https://x.com/photo-768x512.jpg", "", 0, 0⟩] ∧
    normalize_image_url "https://x.com/photo-768x512.jpg" =
      normalize_image_url "https://x.com/photo-300x200.jpg" ∧
    mergedImages [] (server_side_scrape "https://x.com/" variantDoc).1 =
      [⟨"https://x.com/photo-300x200.jpg", "", 0, 0⟩] :=
  ⟨scrape_pass_nodup, rfl, by decide, by decide⟩

/-- C3 counterexample: two `<img>` candidates whose URLs normalize to the
same dedup key but differ literally BOTH appear in the raw-markup pass's
own image list — the pass dedups by literal resolved URL, not by
normalized key, so the claim that only the first-discovered of a
normalized-equal pair appears in that pass's list is false. -/
theorem scrape_dedup_literal_cex :
    (server_side_scrape "https://x.com/" variantDoc).1.map (·.src) =
      ["https://x.com/photo-300x200.jpg", "https://x.com/photo-768x512.jpg"] ∧
    normalize_image_url "https://x.com/photo-768x512.jpg" =
      normalize_image_url "https://x.com/photo-300x200.jpg" :=
  ⟨rfl, by decide⟩

/-! ## Data-URI filtering -/

theorem foldl_addUnique_mem (l : List ImageInfo) :
    ∀ st i, i ∈ (l.foldl addUnique st).2 → i ∈ st.2 ∨ i ∈ l := by
  induction l with
  | nil => intro st i h; exact Or.inl h
  | cons j rest ih =>
    intro st i h
    rw [List.foldl_cons] at h
    rcases ih _ i h with h' | h'
    · by_cases hj : j.src ∈ st.1
      · rw [show addUnique st j = st from by simp [addUnique, hj]] at h'
        exact Or.inl h'
      · rw [show addUnique st j = (j.src :: st.1, st.2 ++ [j]) from by
          simp [addUnique, hj]] at h'
        rcases List.mem_append.mp h' with h'' | h''
        · exact Or.inl h''
        · exact Or.inr (by simp [List.mem_singleton.mp h''])
    · exact Or.inr (List.mem_cons_of_mem _ h')

theorem foldl_addUniqueNorm_mem (l : List ImageInfo) :
    ∀ st i, i ∈ (l.foldl addUniqueNorm st).2 → i ∈ st.2 ∨ i ∈ l := by
  induction l with
  | nil => intro st i h; exact Or.inl h
  | cons j rest ih =>
    intro st i h
    rw [List.foldl_cons] at h
    rcases ih _ i h with h' | h'
    · by_cases hj : normalize_image_url j.src ∈ st.1
      · rw [show addUniqueNorm st j = st from by simp [addUniqueNorm, hj]] at h'
        exact Or.inl h'
      · rw [show addUniqueNorm st j =
            (normalize_image_url j.src :: st.1, st.2 ++ [j]) from by
          simp [addUniqueNorm, hj]] at h'
        rcases List.mem_append.mp h' with h'' | h''
        · exact Or.inl h''
        · exact Or.inr (by simp [List.mem_singleton.mp h''])
    · exact Or.inr (List.mem_cons_of_mem _ h')

theorem mergedImages_mem (b s : List ImageInfo) :
    ∀ i ∈ mergedImages b s, i ∈ b ∨ i ∈ s := by
  intro i h
  have h1 : i ∈ (s.foldl addUniqueNorm (b.foldl addUniqueNorm ([], []))).2 :=
    (List.take_sublist _ _).mem h
  rcases foldl_addUniqueNorm_mem s _ i h1 with h2 | h2
  · rcases foldl_addUniqueNorm_mem b _ i h2 with h3 | h3
    · simp at h3
    · exact Or.inl h3
  · exact Or.inr h2

theorem scrape_images_mem (base : String) (doc : ScrapeDoc) :
    ∀ i ∈ (server_side_scrape base doc).1, i ∈ docImageCandidates base doc := by
  intro i h
  have h1 : i ∈ dedupBySrc (docImageCandidates base doc) :=
    (List.take_sublist _ _).mem h
  rcases foldl_addUnique_mem (docImageCandidates base doc) ([], []) i h1 with h2 | h2
  · simp at h2
  · exact h2

theorem hasPre_iff_append (p : List Char) : ∀ l, hasPre p l = true ↔ ∃ t, l = p ++ t := by
  induction p with
  | nil => intro l; simp [hasPre]
  | cons a ps ih =>
    intro l
    cases l with
    | nil => simp [hasPre]
    | cons c cs =>
      simp only [hasPre, Bool.and_eq_true, beq_iff_eq, ih, List.cons_append,
        List.cons.injEq]
      constructor
      · rintro ⟨rfl, t, rfl⟩
        exact ⟨t, rfl, rfl⟩
      · rintro ⟨t, rfl, rfl⟩
        exact ⟨rfl, t, rfl⟩

theorem hasPre_data_eq_false (c : Char) (cs : List Char) (h : c ≠ 'd') :
    hasPre ("data:".data) (c :: cs) = false := by
  have hd : ('d' == c) = false := beq_eq_false_iff_ne.mpr (Ne.symm h)
  show hasPre ('d' :: 'a' :: 't' :: 'a' :: ':' :: []) (c :: cs) = false
  simp [hasPre, hd]

theorem schemeOf_https (t : List Char) :
    schemeOf ("https://".data ++ t) = "https".data := rfl

theorem originOf_https (t : List Char) :
    originOf ("https://".data ++ t) =
      "https://".data ++ t.takeWhile (· ≠ '/') := rfl

theorem dropWhile_eq_drop {α : Type} (p : α → Bool) :
    ∀ l : List α, ∃ n, l.dropWhile p = l.drop n := by
  intro l
  induction l with
  | nil => exact ⟨0, rfl⟩
  | cons c cs ih =>
    by_cases h : p c
    · obtain ⟨n, hn⟩ := ih
      exact ⟨n + 1, by simp [List.dropWhile_cons, h, hn]⟩
    · exact ⟨0, by simp [List.dropWhile_cons, h]⟩

theorem dirOf_head (c : Char) (cs : List Char) (hmem : '/' ∈ c :: cs) :
    ∃ u, dirOf (c :: cs) = c :: u := by
  obtain ⟨n, hn⟩ := dropWhile_eq_drop (fun x : Char => x ≠ '/') (c :: cs).reverse
  have hne : ¬ ((c :: cs).reverse.dropWhile (fun x : Char => x ≠ '/') = []) := by
    rw [List.dropWhile_eq_nil_iff]
    intro hall
    have h2 := hall '/' (by rw [List.mem_reverse]; exact hmem)
    simp at h2
  have hlt : n < (c :: cs).reverse.length := by
    by_contra hge
    push_neg at hge
    rw [hn, List.drop_eq_nil_of_le hge] at hne
    exact hne rfl
  have hdir : dirOf (c :: cs) = (c :: cs).take ((c :: cs).length - n) := by
    unfold dirOf
    rw [hn, List.reverse_drop, List.reverse_reverse, List.length_reverse]
  obtain ⟨m, hm⟩ : ∃ m, (c :: cs).length - n = m + 1 := by
    refine ⟨(c :: cs).length - n - 1, ?_⟩
    simp only [List.length_reverse] at hlt
    omega
  rw [hdir, hm, List.take_succ_cons]
  exact ⟨cs.take m, rfl⟩

theorem urlJoin_noscheme_not_data (t r : List Char)
    (hr : hasScheme r = false) :
    hasPre ("data:".data) (urlJoinChars ("https://".data ++ t) r) = false := by
  unfold urlJoinChars
  split
  · rename_i h
    rw [hr] at h
    exact Bool.noConfusion h
  · split
    · rw [schemeOf_https]
      exact hasPre_data_eq_false 'h' _ (by decide)
    · split
      · rw [originOf_https]
        exact hasPre_data_eq_false 'h' _ (by decide)
      · obtain ⟨u, hu⟩ := dirOf_head 'h' ("ttps://".data ++ t)
          (List.mem_cons_of_mem _ (List.mem_append_left _ (by decide)))
        rw [show ("https://".data ++ t) = 'h' :: ("ttps://".data ++ t) from rfl, hu]
        exact hasPre_data_eq_false 'h' _ (by decide)

theorem imgAttrCandidate_noData (base alt : String) (w h : Nat) (v : String) :
    ∀ i ∈ imgAttrCandidate base alt w h v,
      hasPre ("data:".data) i.src.data = false := by
  intro i hi
  simp only [imgAttrCandidate] at hi
  split at hi
  · simp at hi
  · split at hi
    · rename_i h2
      simp at hi
    · rename_i h2
      rw [List.mem_singleton.mp hi]
      simpa using h2

theorem srcsetCandidates_noData (base alt v : String) :
    ∀ i ∈ srcsetCandidates base alt v,
      hasPre ("data:".data) i.src.data = false := by
  intro i hi
  simp only [srcsetCandidates] at hi
  rcases List.mem_flatMap.mp hi with ⟨entry, _, hin⟩
  split at hin
  · simp at hin
  · split at hin
    · simp at hin
    · rename_i h2
      rw [List.mem_singleton.mp hin]
      simpa using h2

theorem imgCandidates_noData (base : String) (el : ImgEl) :
    ∀ i ∈ imgCandidates base el,
      hasPre ("data:".data) i.src.data = false := by
  intro i hi
  rcases List.mem_append.mp hi with h | h
  · rcases List.mem_flatMap.mp h with ⟨v, _, hin⟩
    exact imgAttrCandidate_noData base el.alt el.width el.height v i hin
  · rcases hel : el.srcset with _ | v
    · rw [hel] at h
      simp at h
    · rw [hel] at h
      exact srcsetCandidates_noData base el.alt v i h

theorem scriptCandidates_noData (t : List Char) (base s : String)
    (hb : base.data = "https://".data ++ t) :
    ∀ i ∈ scriptCandidates base s,
      hasPre ("data:".data) i.src.data = false := by
  intro i hi
  simp only [scriptCandidates] at hi
  split at hi
  · simp at hi
  · rcases List.mem_flatMap.mp hi with ⟨part, _, hin⟩
    split at hin
    · split at hin
      · split at hin
        · rename_i hor
          rw [List.mem_singleton.mp hin]
          dsimp only
          split
          · exact hasPre_data_eq_false 'h' _ (by decide)
          · rename_i hnot2
            have hhttp := Or.resolve_right hor hnot2
            obtain ⟨u, hu⟩ := (hasPre_iff_append ("http".data) _).mp hhttp
            rw [hu]
            exact hasPre_data_eq_false 'h' ('t' :: 't' :: 'p' :: u) (by decide)
        · split at hin
          · split at hin
            · rename_i hslash _
              rw [List.mem_singleton.mp hin]
              dsimp only
              rw [hb]
              apply urlJoin_noscheme_not_data t
              obtain ⟨u, hu⟩ := (hasPre_iff_append ("/".data) _).mp hslash
              rw [hu]
              rfl
            · simp at hin
          · simp at hin
      · simp at hin
    · simp at hin

theorem docImageCandidates_noData (t : List Char) (base : String)
    (doc : ScrapeDoc) (hb : base.data = "https://".data ++ t)
    (ha : doc.anchors = []) (hm : doc.metas = []) (hp : doc.posters = [])
    (hs : doc.styles = []) :
    ∀ i ∈ docImageCandidates base doc,
      hasPre ("data:".data) i.src.data = false := by
  intro i hi
  unfold docImageCandidates at hi
  rw [ha, hm, hp, hs] at hi
  simp only [List.flatMap_nil, List.append_nil, List.nil_append,
    List.mem_append] at hi
  rcases hi with (hi | hi) | hi
  · rcases List.mem_flatMap.mp hi with ⟨el, _, hin⟩
    exact imgCandidates_noData base el i hin
  · rcases List.mem_flatMap.mp hi with ⟨v, _, hin⟩
    exact srcsetCandidates_noData base "" v i hin
  · rcases List.mem_flatMap.mp hi with ⟨sc, _, hin⟩
    exact scriptCandidates_noData t base sc hb i hin

/-- C2 counterexample: the claim says no `data:` string ever appears as an
image `src` in the final combined list, for every document and strategy.
But the social-preview strategy (lines 189-199) — like the hyperlink and
video-poster strategies — applies no `data:` filter, so a document whose
`og:image` content is a `data:` URI puts that URI straight into the final
merged output.  The inline-style strategy leaks too: its filter runs
case-sensitively on the raw candidate before the join (line 224), so an
uppercase `DATA:` scheme passes it and the join's WHATWG serialization
lowercases it into a literal `data:` src. -/
theorem no_data_uri_cex :
    analyze_page (BrowserOutcome.delivered plainBrowser)
        (ServerOutcome.ok (server_side_scrape "https://x.com/" dataMetaDoc)) =
      .ok ⟨[], [],
        [⟨"data:image/png;base64,iVBORw0KGgo", "Social preview", 0, 0⟩], [],
        ⟨"", "", ""⟩⟩ ∧
    hasPre ("data:".data)
      ("data:image/png;base64,iVBORw0KGgo" : String).data = true ∧
    analyze_page (BrowserOutcome.delivered plainBrowser)
        (ServerOutcome.ok (server_side_scrape "https://x.com/" dataStyleDoc)) =
      .ok ⟨[], [], [⟨"data:image/png;base64,AAAA", "", 0, 0⟩], [],
        ⟨"", "", ""⟩⟩ :=
  ⟨rfl, rfl, rfl⟩

/-- C2 (amended): data-URI candidates discovered by the image-element
attribute, srcset and picture-source strategies never appear in the output
(their `data:` check runs on the JOINED url), and the script scan admits
only `http`/`//`/`/`-prefixed tokens, which resolve under the base's
scheme; but the hyperlink, social-preview-metadata and video-poster
strategies apply no `data:` filter, the inline-style strategy's filter is
case-sensitive and runs before the join (so an uppercase `DATA:` scheme
slips through and is lowercased by the join's WHATWG serialization), and
rendering-pass images are not data-filtered at merge.  So for an `https`
base, a document exercising none of those leaky strategies, and a
rendering pass free of data URIs, no `data:` src appears in the final
merged list. -/
theorem no_data_uri (bd : BrowserAnalysis) (base : String) (doc : ScrapeDoc)
    (r : AnalysisResult) (t : List Char)
    (hb : base.data = "https://".data ++ t)
    (hbi : ∀ i ∈ bd.images, hasPre ("data:".data) i.src.data = false)
    (ha : doc.anchors = []) (hm : doc.metas = []) (hp : doc.posters = [])
    (hs : doc.styles = [])
    (hr : analyze_page (BrowserOutcome.delivered bd)
        (ServerOutcome.ok (server_side_scrape base doc)) = .ok r) :
    ∀ i ∈ r.images, hasPre ("data:".data) i.src.data = false := by
  intro i hi
  have hEq : (Except.ok (analyzeOkResult bd (server_side_scrape base doc)) :
      Except String AnalysisResult) = Except.ok r := hr
  have hR := (Except.ok.inj hEq).symm
  rw [hR] at hi
  have hi' : i ∈ mergedImages bd.images (server_side_scrape base doc).1 := hi
  rcases mergedImages_mem _ _ i hi' with h | h
  · exact hbi i h
  · exact docImageCandidates_noData t base doc hb ha hm hp hs i
      (scrape_images_mem base doc i h)

/-- Witness for `no_data_uri`. -/
theorem no_data_uri_witness :
    (("https://x.com/" : String).data = "https://".data ++ "x.com/".data) ∧
    oneImgDoc.anchors = [] ∧ oneImgDoc.metas = [] ∧ oneImgDoc.posters = [] ∧
    oneImgDoc.styles = [] ∧
    (analyze_page (BrowserOutcome.delivered sampleBrowserData)
        (ServerOutcome.ok (server_side_scrape "https://x.com/" oneImgDoc)) =
      .ok ⟨["#fff"], ["Arial"], [⟨"https://x.com/a.jpg", "logo", 0, 0⟩], [],
        ⟨"T", "", ""⟩⟩) ∧
    ∀ i ∈ (⟨["#fff"], ["Arial"], [⟨"https://x.com/a.jpg", "logo", 0, 0⟩], [],
        ⟨"T", "", ""⟩⟩ : AnalysisResult).images,
      hasPre ("data:".data) i.src.data = false :=
  ⟨rfl, rfl, rfl, rfl, rfl, rfl,
   no_data_uri sampleBrowserData "https://x.com/" oneImgDoc _ ("x.com/".data)
     rfl (by intro i h; exact absurd h (List.not_mem_nil i)) rfl rfl rfl rfl
     rfl⟩

/-! ## Text fragment length -/

theorem foldl_addUniqueText_mem (l : List TextBlock) :
    ∀ st b, b ∈ (l.foldl addUniqueText st).2 → b ∈ st.2 ∨ b ∈ l := by
  induction l with
  | nil => intro st b h; exact Or.inl h
  | cons j rest ih =>
    intro st b h
    rw [List.foldl_cons] at h
    rcases ih _ b h with h' | h'
    · by_cases hj : j.text ∈ st.1
      · rw [show addUniqueText st j = st from by simp [addUniqueText, hj]] at h'
        exact Or.inl h'
      · rw [show addUniqueText st j = (j.text :: st.1, st.2 ++ [j]) from by
          simp [addUniqueText, hj]] at h'
        rcases List.mem_append.mp h' with h'' | h''
        · exact Or.inl h''
        · exact Or.inr (by simp [List.mem_singleton.mp h''])
    · exact Or.inr (List.mem_cons_of_mem _ h')

theorem mergedText_mem (b s : List TextBlock) :
    ∀ tb ∈ mergedText b s, tb ∈ b ∨ tb ∈ s := by
  intro tb h
  have h1 : tb ∈ (s.foldl addUniqueText (b.foldl addUniqueText ([], []))).2 :=
    (List.take_sublist _ _).mem h
  rcases foldl_addUniqueText_mem s _ tb h1 with h2 | h2
  · rcases foldl_addUniqueText_mem b _ tb h2 with h3 | h3
    · simp at h3
    · exact Or.inl h3
  · exact Or.inr h2

theorem scrape_text_mem (base : String) (doc : ScrapeDoc) :
    ∀ tb ∈ (server_side_scrape base doc).2, tb ∈ docTextCandidates doc := by
  intro tb h
  have h1 : tb ∈ dedupByText (docTextCandidates doc) :=
    (List.take_sublist _ _).mem h
  rcases foldl_addUniqueText_mem (docTextCandidates doc) ([], []) tb h1 with h2 | h2
  · simp at h2
  · exact h2

theorem docTextCandidates_shape (d : ScrapeDoc) :
    ∀ b ∈ docTextCandidates d,
      (∃ raw, b.text.data = trimChars raw) ∧ 3 ≤ byteLen b.text.data := by
  intro b hb
  simp only [docTextCandidates] at hb
  rcases List.mem_flatMap.mp hb with ⟨p, _, h1⟩
  rcases List.mem_flatMap.mp h1 with ⟨traw, _, h2⟩
  split at h2
  · rename_i hlen
    rw [List.mem_singleton.mp h2]
    exact ⟨⟨traw.data, rfl⟩, hlen⟩
  · simp at h2

theorem dropWhile_head_false {α : Type} (p : α → Bool) :
    ∀ (l : List α) (c : α) (cs : List α), l.dropWhile p = c :: cs → p c = false := by
  intro l
  induction l with
  | nil => intro c cs h; simp at h
  | cons a as ih =>
    intro c cs h
    rw [List.dropWhile_cons] at h
    split at h
    · exact ih c cs h
    · rename_i hpa
      injection h with h1 h2
      rw [← h1]
      simpa using hpa

theorem dropWhile_idem {α : Type} (p : α → Bool) (l : List α) :
    (l.dropWhile p).dropWhile p = l.dropWhile p := by
  rcases hd : l.dropWhile p with _ | ⟨c, cs⟩
  · rfl
  · have hc := dropWhile_head_false p l c cs hd
    rw [List.dropWhile_cons, if_neg (by simp [hc])]

theorem trimChars_idem (l : List Char) : trimChars (trimChars l) = trimChars l := by
  have hstep1 : (trimChars l).dropWhile Char.isWhitespace = trimChars l := by
    unfold trimChars
    obtain ⟨n, hn⟩ := dropWhile_eq_drop Char.isWhitespace
      (l.dropWhile Char.isWhitespace).reverse
    rw [hn, List.reverse_drop, List.reverse_reverse, List.length_reverse]
    cases hA : l.dropWhile Char.isWhitespace with
    | nil => simp
    | cons a as =>
      have ha := dropWhile_head_false Char.isWhitespace l a as hA
      cases hk : (a :: as).length - n with
      | zero => simp
      | succ m =>
        rw [List.take_succ_cons, List.dropWhile_cons, if_neg (by simp [ha])]
  have hstep2 : (trimChars l).reverse.dropWhile Char.isWhitespace =
      (trimChars l).reverse := by
    unfold trimChars
    rw [List.reverse_reverse]
    exact dropWhile_idem _ _
  show (((trimChars l).dropWhile Char.isWhitespace).reverse.dropWhile
      Char.isWhitespace).reverse = trimChars l
  rw [hstep1, hstep2, List.reverse_reverse]

/-- C6 (amended): every text fragment in the final combined output has
trimmed text of UTF-8 byte length at least 3 — which coincides with 3
characters for ASCII text but not in general, since the code compares byte
length (`text.len() >= 3`), not character count.  The raw-markup pass
guarantees this for its own fragments; rendering-pass fragments carry it
by the TextFragment invariant of the data model (their producer, the
injected browser script, is outside the embedded code), stated here as a
hypothesis. -/
theorem text_min_length (bd : BrowserAnalysis) (base : String) (doc : ScrapeDoc)
    (r : AnalysisResult)
    (hbt : ∀ tb ∈ bd.text_content, 3 ≤ byteLen (trimChars tb.text.data))
    (hr : analyze_page (BrowserOutcome.delivered bd)
        (ServerOutcome.ok (server_side_scrape base doc)) = .ok r) :
    ∀ tb ∈ r.text_content, 3 ≤ byteLen (trimChars tb.text.data) := by
  intro tb htb
  have hEq : (Except.ok (analyzeOkResult bd (server_side_scrape base doc)) :
      Except String AnalysisResult) = Except.ok r := hr
  have hR := (Except.ok.inj hEq).symm
  rw [hR] at htb
  have htb' : tb ∈ mergedText bd.text_content (server_side_scrape base doc).2 := htb
  rcases mergedText_mem _ _ tb htb' with h | h
  · exact hbt tb h
  · obtain ⟨⟨raw, hraw⟩, hlen⟩ :=
      docTextCandidates_shape doc tb (scrape_text_mem base doc tb h)
    rw [hraw, trimChars_idem, ← hraw]
    exact hlen

/-- C6 counterexample: the claim demands at least 3 CHARACTERS after
trimming, but the code's guard `text.len() >= 3` counts UTF-8 bytes: the
one-character, three-byte fragment `€` passes the raw-markup pass's filter
and reaches the final combined output with a trimmed length of a single
character. -/
theorem text_min_length_cex :
    analyze_page (BrowserOutcome.delivered plainBrowser)
        (ServerOutcome.ok (server_side_scrape "https://x.com/" euroDoc)) =
      .ok ⟨[], [], [], [⟨"P", "€"⟩], ⟨"", "", ""⟩⟩ ∧
    (trimChars ("€" : String).data).length = 1 ∧
    byteLen ("€" : String).data = 3 :=
  ⟨rfl, rfl, rfl⟩

/-- Witness for `text_min_length`. -/
theorem text_min_length_witness :
    (∀ tb ∈ plainBrowser.text_content, 3 ≤ byteLen (trimChars tb.text.data)) ∧
    ∀ tb ∈ (⟨[], [], [], [⟨"P", "€"⟩], ⟨"", "", ""⟩⟩ : AnalysisResult).text_content,
      3 ≤ byteLen (trimChars tb.text.data) :=
  ⟨by intro tb h; exact absurd h (List.not_mem_nil tb),
   text_min_length plainBrowser "https://x.com/" euroDoc _
     (by intro tb h; exact absurd h (List.not_mem_nil tb)) rfl⟩

/-! ## Shape of the suffix patterns -/

theorem extTail_some (l e : List Char) (h : extTail l = some e) :
    e = l ∧ extShape l := by
  cases l with
  | nil => simp [extTail] at h
  | cons c rest =>
    simp only [extTail] at h
    split at h
    · rename_i hc
      injection h with h1
      refine ⟨h1.symm, ?_⟩
      obtain ⟨hc1, hne, hall⟩ := hc
      subst hc1
      cases rest with
      | nil => exact absurd rfl hne
      | cons a as => exact ⟨a, as, rfl, hall⟩
    · exact absurd h (by simp)

theorem tail_decomp (c : Char) (rest e : List Char) (k : Nat)
    (he : extTail (rest.drop k) = some e) :
    extShape e ∧ ∃ seg, seg ≠ [] ∧ c :: rest = seg ++ e := by
  obtain ⟨he1, hshape⟩ := extTail_some _ _ he
  subst he1
  exact ⟨hshape, ⟨c :: rest.take k, by simp,
    by rw [List.cons_append, List.take_append_drop]⟩⟩

theorem bareResAt_anchored : anchoredTail bareResAt := by
  intro t n r h
  cases t with
  | nil => simp [bareResAt] at h
  | cons c rest =>
    simp only [bareResAt] at h
    split at h
    · split at h
      · rename_i e he
        injection h with h1
        injection h1 with hn hr
        subst hn
        subst hr
        split at he
        · obtain ⟨hshape, seg, hne, hdec⟩ := tail_decomp c rest e 4 he
          exact ⟨rfl, hshape, seg, hne, hdec⟩
        · exact absurd he (by simp)
      · split at h
        · rename_i e he
          injection h with h1
          injection h1 with hn hr
          subst hn
          subst hr
          split at he
          · obtain ⟨hshape, seg, hne, hdec⟩ := tail_decomp c rest e 3 he
            exact ⟨rfl, hshape, seg, hne, hdec⟩
          · exact absurd he (by simp)
        · exact absurd h (by simp)
    · exact absurd h (by simp)

theorem densityAt_anchored : anchoredTail densityAt := by
  intro t n r h
  cases t with
  | nil => simp [densityAt] at h
  | cons c rest =>
    simp only [densityAt] at h
    split at h
    · rename_i hc
      split at h
      · rename_i d c2 rest2
        split at h
        · rename_i hdx
          split at h
          · rename_i e he
            injection h with h1
            injection h1 with hn hr
            subst hn
            subst hr
            obtain ⟨he1, hshape⟩ := extTail_some _ _ he
            subst he1
            refine ⟨rfl, hshape, [c, d, c2], by simp, rfl⟩
          · exact absurd h (by simp)
        · exact absurd h (by simp)
      · exact absurd h (by simp)
    · exact absurd h (by simp)

theorem namedTry_some (rest : List Char) : ∀ (ws : List (List Char)) (e : List Char),
    namedTry rest ws = some e → ∃ k, extTail (rest.drop k) = some e := by
  intro ws
  induction ws with
  | nil => intro e h; simp [namedTry] at h
  | cons w tail ih =>
    intro e h
    simp only [namedTry] at h
    split at h
    · split at h
      · rename_i e1 he
        injection h with h1
        exact ⟨w.length, by rw [he, h1]⟩
      · exact ih e h
    · exact ih e h

theorem namedAt_anchored : anchoredTail namedAt := by
  intro t n r h
  cases t with
  | nil => simp [namedAt] at h
  | cons c rest =>
    simp only [namedAt] at h
    split at h
    · split at h
      · rename_i e he
        injection h with h1
        injection h1 with hn hr
        subst hn
        subst hr
        obtain ⟨k, hk⟩ := namedTry_some rest sizeNames e he
        obtain ⟨hshape, seg, hne, hdec⟩ := tail_decomp c rest e k hk
        exact ⟨rfl, hshape, seg, hne, hdec⟩
      · exact absurd h (by simp)
    · exact absurd h (by simp)

theorem replaceFirst_anchored (f : List Char → Option (Nat × List Char))
    (hf : anchoredTail f) :
    ∀ s, replaceFirst f s = s ∨
      ∃ pre seg ext, seg ≠ [] ∧ extShape ext ∧ s = pre ++ seg ++ ext ∧
        replaceFirst f s = pre ++ ext := by
  intro s
  induction s with
  | nil => exact Or.inl rfl
  | cons c rest ih =>
    rcases hfc : f (c :: rest) with _ | ⟨n, r⟩
    · rw [show replaceFirst f (c :: rest) = c :: replaceFirst f rest from by
        simp [replaceFirst, hfc]]
      rcases ih with h | ⟨pre, seg, ext, h1, h2, h3, h4⟩
      · exact Or.inl (by rw [h])
      · refine Or.inr ⟨c :: pre, seg, ext, h1, h2, ?_, ?_⟩
        · rw [List.cons_append, List.cons_append, ← h3]
        · rw [List.cons_append, h4]
    · obtain ⟨hn, hshape, seg, hne, hdec⟩ := hf _ _ _ hfc
      refine Or.inr ⟨[], seg, r, hne, hshape, by simpa using hdec, ?_⟩
      rw [show replaceFirst f (c :: rest) = r ++ (c :: rest).drop n from by
        simp [replaceFirst, hfc]]
      rw [hn, List.drop_length]
      simp

/-- C4 (amended): after stripping query and fragment, the five patterns are
applied one after another in the fixed priority order (vendor marker,
WIDTHxHEIGHT, bare 3-4-digit suffix, @Nx, named-size), each replacing only
its FIRST (leftmost) occurrence; the bare-digit, @Nx and named-size
patterns are anchored and rewrite only a segment standing immediately
before the final `.extension` of the URL; but the vendor-marker and
WIDTHxHEIGHT patterns are unanchored and may rewrite anywhere in the URL,
including an earlier path segment. -/
theorem suffix_pattern_application :
    (∀ l, normChars l =
      replaceFirst namedAt (replaceFirst densityAt (replaceFirst bareResAt
        (replaceFirst wxhAt (replaceFirst vendorAt (stripQueryFragment l)))))) ∧
    (∀ s, replaceFirst bareResAt s = s ∨
      ∃ pre seg ext, seg ≠ [] ∧ extShape ext ∧ s = pre ++ seg ++ ext ∧
        replaceFirst bareResAt s = pre ++ ext) ∧
    (∀ s, replaceFirst densityAt s = s ∨
      ∃ pre seg ext, seg ≠ [] ∧ extShape ext ∧ s = pre ++ seg ++ ext ∧
        replaceFirst densityAt s = pre ++ ext) ∧
    (∀ s, replaceFirst namedAt s = s ∨
      ∃ pre seg ext, seg ≠ [] ∧ extShape ext ∧ s = pre ++ seg ++ ext ∧
        replaceFirst namedAt s = pre ++ ext) ∧
    normalize_image_url "https://x.com/a-12x34-56x78.jpg" =
      "https://x.com/a-56x78.jpg" :=
  ⟨fun _ => rfl, replaceFirst_anchored _ bareResAt_anchored,
   replaceFirst_anchored _ densityAt_anchored,
   replaceFirst_anchored _ namedAt_anchored, by decide⟩

/-- C4 counterexample: the claim says every pattern rewrites only at the
tail of the path immediately before the extension, never in an earlier
path segment.  The URL below carries no recognized suffix on its final
segment `photo.jpg`, so a tail-only normalizer would leave it unchanged —
yet the unanchored WIDTHxHEIGHT pattern deletes `-300x200` from the
earlier `tiles-300x200` directory segment. -/
theorem suffix_pattern_midpath_cex :
    normalize_image_url "https://x.com/tiles-300x200/photo.jpg" =
      "https://x.com/tiles/photo.jpg" ∧
    normalize_image_url "https://x.com/tiles-300x200/photo.jpg" ≠
      "https://x.com/tiles-300x200/photo.jpg" :=
  ⟨by decide, by decide⟩

/-! ## Generic collapse of WIDTHxHEIGHT variants -/

theorem digit_ne (c d : Char) (hc : c.isDigit = true) (hd : d.isDigit = false) :
    c ≠ d := by
  intro h
  rw [h] at hc
  rw [hc] at hd
  exact Bool.noConfusion hd

theorem plain_spec (c : Char) (h : plainChar c = true) :
    c ≠ '-' ∧ c ≠ '_' ∧ c ≠ '@' ∧ c ≠ '?' ∧ c ≠ '#' := by
  simp only [plainChar, Bool.not_eq_true', Bool.or_eq_false_iff,
    beq_eq_false_iff_ne] at h
  exact ⟨h.1.1.1.1, h.1.1.1.2, h.1.1.2, h.1.2, h.2⟩

theorem takeWhile_all {p : Char → Bool} :
    ∀ l : List Char, (∀ c ∈ l, p c = true) → l.takeWhile p = l := by
  intro l
  induction l with
  | nil => intro _; rfl
  | cons c cs ih =>
    intro h
    rw [List.takeWhile_cons, if_pos (h c (List.mem_cons_self _ _)),
      ih (fun d hd => h d (List.mem_cons_of_mem _ hd))]

theorem takeWhile_append_stop {p : Char → Bool} :
    ∀ (xs : List Char) (y : Char) (r : List Char),
      (∀ c ∈ xs, p c = true) → p y = false →
      (xs ++ y :: r).takeWhile p = xs := by
  intro xs
  induction xs with
  | nil =>
    intro y r _ hy
    rw [List.nil_append, List.takeWhile_cons, if_neg (by simp [hy])]
  | cons c cs ih =>
    intro y r h hy
    rw [List.cons_append, List.takeWhile_cons,
      if_pos (h c (List.mem_cons_self _ _)),
      ih y r (fun d hd => h d (List.mem_cons_of_mem _ hd)) hy]

theorem digitRun_append_stop (xs : List Char) (y : Char) (r : List Char)
    (h : ∀ c ∈ xs, c.isDigit = true) (hy : y.isDigit = false) :
    digitRun (xs ++ y :: r) = xs.length := by
  unfold digitRun
  rw [takeWhile_append_stop xs y r h hy]

theorem digitRun_all (xs : List Char) (h : ∀ c ∈ xs, c.isDigit = true) :
    digitRun xs = xs.length := by
  unfold digitRun
  rw [takeWhile_all xs h]

theorem replaceFirst_cons_none (f : List Char → Option (Nat × List Char))
    (c : Char) (rest : List Char) (h : f (c :: rest) = none) :
    replaceFirst f (c :: rest) = c :: replaceFirst f rest := by
  simp [replaceFirst, h]

theorem replaceFirst_append_headNone (f : List Char → Option (Nat × List Char)) :
    ∀ (xs ys : List Char), (∀ c ∈ xs, ∀ rest, f (c :: rest) = none) →
      replaceFirst f (xs ++ ys) = xs ++ replaceFirst f ys := by
  intro xs
  induction xs with
  | nil => intro ys _; rfl
  | cons c cs ih =>
    intro ys h
    rw [List.cons_append,
      replaceFirst_cons_none f c (cs ++ ys) (h c (List.mem_cons_self _ _) _),
      ih ys (fun d hd => h d (List.mem_cons_of_mem _ hd)), List.cons_append]

theorem vendorAt_none_head (c : Char) (rest : List Char)
    (h1 : c ≠ '-') (h2 : c ≠ '_') : vendorAt (c :: rest) = none := by
  simp [vendorAt, h1, h2]

theorem wxhAt_none_head (c : Char) (rest : List Char) (h1 : c ≠ '-') :
    wxhAt (c :: rest) = none := by
  simp [wxhAt, h1]

theorem bareResAt_none_head (c : Char) (rest : List Char)
    (h1 : c ≠ '-') (h2 : c ≠ '_') : bareResAt (c :: rest) = none := by
  simp [bareResAt, h1, h2]

theorem densityAt_none_head (c : Char) (rest : List Char) (h1 : c ≠ '@') :
    densityAt (c :: rest) = none := by
  simp [densityAt, h1]

theorem namedAt_none_head (c : Char) (rest : List Char)
    (h1 : c ≠ '-') (h2 : c ≠ '_') : namedAt (c :: rest) = none := by
  simp [namedAt, h1, h2]

theorem hasPre_cons_false (p c : Char) (ps cs : List Char) (h : p ≠ c) :
    hasPre (p :: ps) (c :: cs) = false := by
  simp [hasPre, beq_eq_false_iff_ne.mpr h]

theorem vendorAt_none_digit (c d : Char) (u : List Char) (hd : d.isDigit = true) :
    vendorAt (c :: d :: u) = none := by
  have h1 : hasPre ("cc_ft_".data) (d :: u) = false :=
    hasPre_cons_false 'c' d _ _ (Ne.symm (digit_ne d 'c' hd (by decide)))
  have h2 : hasPre ("ft_".data) (d :: u) = false :=
    hasPre_cons_false 'f' d _ _ (Ne.symm (digit_ne d 'f' hd (by decide)))
  simp only [vendorAt]
  split
  · rw [if_neg (by simp [h1]), if_neg (by simp [h2])]
  · rfl

theorem wxhTry_too_many (rest : List Char) (k : Nat) (h : ¬ k ≤ digitRun rest) :
    wxhTry rest k = none := by
  simp [wxhTry, h]

theorem wxhTry_exact (w h z : List Char)
    (hw : ∀ c ∈ w, c.isDigit = true)
    (hh2 : 2 ≤ h.length) (hh4 : h.length ≤ 4) (hz : digitRun (h ++ z) = h.length) :
    wxhTry (w ++ 'x' :: (h ++ z)) w.length =
      some (1 + w.length + 1 + h.length, []) := by
  have hrun : digitRun (w ++ 'x' :: (h ++ z)) = w.length :=
    digitRun_append_stop w 'x' _ hw (by decide)
  have hm : min 4 (digitRun (h ++ z)) = h.length := by
    rw [hz]
    exact Nat.min_eq_right hh4
  unfold wxhTry
  rw [if_pos (by rw [hrun]), List.drop_left]
  dsimp only
  rw [if_pos rfl, hm, if_pos hh2]

theorem wxhAt_at_sep (w h z : List Char)
    (hw : ∀ c ∈ w, c.isDigit = true) (hh : ∀ c ∈ h, c.isDigit = true)
    (hw2 : 2 ≤ w.length) (hw4 : w.length ≤ 4)
    (hh2 : 2 ≤ h.length) (hh4 : h.length ≤ 4) (hz : digitRun z = 0) :
    wxhAt ('-' :: (w ++ 'x' :: (h ++ z))) =
      some (1 + w.length + 1 + h.length, []) := by
  have hrun : digitRun (w ++ 'x' :: (h ++ z)) = w.length :=
    digitRun_append_stop w 'x' _ hw (by decide)
  have hafter : digitRun (h ++ z) = h.length := by
    unfold digitRun
    rw [List.takeWhile_append, takeWhile_all h hh]
    rw [if_pos rfl]
    unfold digitRun at hz
    rw [List.length_append, hz, Nat.add_zero]
  have hx : wxhTry (w ++ 'x' :: (h ++ z)) w.length =
      some (1 + w.length + 1 + h.length, []) :=
    wxhTry_exact w h z hw hh2 hh4 hafter
  simp only [wxhAt, if_true]
  have hlen : w.length = 2 ∨ w.length = 3 ∨ w.length = 4 := by omega
  rcases hlen with hl | hl | hl
  · rw [wxhTry_too_many _ 4 (by rw [hrun]; omega),
      wxhTry_too_many _ 3 (by rw [hrun]; omega)]
    dsimp only
    rw [← hl, hx]
  · rw [wxhTry_too_many _ 4 (by rw [hrun]; omega)]
    dsimp only
    rw [← hl, hx]
  · rw [← hl, hx]

theorem stripQF_of_all (l : List Char)
    (h : ∀ c ∈ l, c ≠ '?' ∧ c ≠ '#') : stripQueryFragment l = l := by
  unfold stripQueryFragment
  rw [takeWhile_all l (fun c hc => by simpa using (h c hc).1),
    takeWhile_all l (fun c hc => by simpa using (h c hc).2)]

theorem wxhUrl_chars (stem w h : List Char)
    (hstem : ∀ c ∈ stem, plainChar c = true)
    (hw : ∀ c ∈ w, c.isDigit = true) (hh : ∀ c ∈ h, c.isDigit = true) :
    ∀ c ∈ wxhUrl stem w h, c ≠ '?' ∧ c ≠ '#' := by
  intro c hc
  unfold wxhUrl at hc
  rcases List.mem_append.mp hc with hc | hc
  · have hs := plain_spec c (hstem c hc)
    exact ⟨hs.2.2.2.1, hs.2.2.2.2⟩
  · rcases List.mem_cons.mp hc with rfl | hc
    · exact ⟨by decide, by decide⟩
    · rcases List.mem_append.mp hc with hc | hc
      · exact ⟨digit_ne c '?' (hw c hc) (by decide),
          digit_ne c '#' (hw c hc) (by decide)⟩
      · rcases List.mem_cons.mp hc with rfl | hc
        · exact ⟨by decide, by decide⟩
        · rcases List.mem_append.mp hc with hc | hc
          · exact ⟨digit_ne c '?' (hh c hc) (by decide),
              digit_ne c '#' (hh c hc) (by decide)⟩
          · have hfin : c = '.' ∨ c = 'j' ∨ c = 'p' ∨ c = 'g' := by
              simpa using hc
            rcases hfin with rfl | rfl | rfl | rfl <;> exact ⟨by decide, by decide⟩

theorem plainUrl_chars (stem : List Char)
    (hstem : ∀ c ∈ stem, plainChar c = true) :
    ∀ c ∈ plainUrl stem, c ≠ '?' ∧ c ≠ '#' := by
  intro c hc
  unfold plainUrl at hc
  rcases List.mem_append.mp hc with hc | hc
  · have hs := plain_spec c (hstem c hc)
    exact ⟨hs.2.2.2.1, hs.2.2.2.2⟩
  · have hfin : c = '.' ∨ c = 'j' ∨ c = 'p' ∨ c = 'g' := by simpa using hc
    rcases hfin with rfl | rfl | rfl | rfl <;> exact ⟨by decide, by decide⟩

theorem vendorAt_none_sep (c : Char) (w z : List Char)
    (hw : ∀ x ∈ w, x.isDigit = true) (hne : w ≠ []) :
    vendorAt (c :: (w ++ z)) = none := by
  obtain ⟨d, w', rfl⟩ : ∃ d w', w = d :: w' := by
    cases w with
    | nil => exact absurd rfl hne
    | cons d w' => exact ⟨d, w', rfl⟩
  show vendorAt (c :: d :: (w' ++ z)) = none
  exact vendorAt_none_digit c d _ (hw d (List.mem_cons_self _ _))

theorem step1_id (stem w h : List Char)
    (hstem : ∀ c ∈ stem, plainChar c = true)
    (hw : ∀ c ∈ w, c.isDigit = true) (hw2 : 2 ≤ w.length)
    (hh : ∀ c ∈ h, c.isDigit = true) :
    replaceFirst vendorAt (wxhUrl stem w h) = wxhUrl stem w h := by
  have hwne : w ≠ [] := by
    cases w with
    | nil => simp at hw2
    | cons d w' => simp
  unfold wxhUrl
  rw [replaceFirst_append_headNone vendorAt stem _ (fun c hc rest =>
    vendorAt_none_head c rest (plain_spec c (hstem c hc)).1
      (plain_spec c (hstem c hc)).2.1)]
  rw [replaceFirst_cons_none vendorAt '-' _ (vendorAt_none_sep '-' w _ hw hwne)]
  rw [replaceFirst_append_headNone vendorAt w _ (fun c hc rest =>
    vendorAt_none_head c rest (digit_ne c '-' (hw c hc) (by decide))
      (digit_ne c '_' (hw c hc) (by decide)))]
  rw [replaceFirst_cons_none vendorAt 'x' _
    (vendorAt_none_head 'x' _ (by decide) (by decide))]
  rw [replaceFirst_append_headNone vendorAt h _ (fun c hc rest =>
    vendorAt_none_head c rest (digit_ne c '-' (hh c hc) (by decide))
      (digit_ne c '_' (hh c hc) (by decide)))]
  rw [show replaceFirst vendorAt (".jpg".data) = ".jpg".data from by decide]

theorem step2_collapse (stem w h : List Char)
    (hstem : ∀ c ∈ stem, plainChar c = true)
    (hw : ∀ c ∈ w, c.isDigit = true) (hw2 : 2 ≤ w.length) (hw4 : w.length ≤ 4)
    (hh : ∀ c ∈ h, c.isDigit = true) (hh2 : 2 ≤ h.length) (hh4 : h.length ≤ 4) :
    replaceFirst wxhAt (wxhUrl stem w h) = plainUrl stem := by
  unfold wxhUrl plainUrl
  rw [replaceFirst_append_headNone wxhAt stem _ (fun c hc rest =>
    wxhAt_none_head c rest (plain_spec c (hstem c hc)).1)]
  congr 1
  have hsep := wxhAt_at_sep w h (".jpg".data) hw hh hw2 hw4 hh2 hh4 (by decide)
  rw [show replaceFirst wxhAt ('-' :: (w ++ 'x' :: (h ++ ".jpg".data))) =
      [] ++ ('-' :: (w ++ 'x' :: (h ++ ".jpg".data))).drop
        (1 + w.length + 1 + h.length) from by
    simp [replaceFirst, hsep]]
  rw [List.nil_append,
    show ('-' :: (w ++ 'x' :: (h ++ ".jpg".data))) =
      (('-' :: w) ++ ('x' :: h)) ++ ".jpg".data from by simp,
    List.drop_left' (by
      simp only [List.length_append, List.length_cons]
      omega)]

theorem steps_id_plain (stem : List Char)
    (hstem : ∀ c ∈ stem, plainChar c = true) :
    replaceFirst vendorAt (plainUrl stem) = plainUrl stem ∧
    replaceFirst wxhAt (plainUrl stem) = plainUrl stem ∧
    replaceFirst bareResAt (plainUrl stem) = plainUrl stem ∧
    replaceFirst densityAt (plainUrl stem) = plainUrl stem ∧
    replaceFirst namedAt (plainUrl stem) = plainUrl stem := by
  unfold plainUrl
  refine ⟨?_, ?_, ?_, ?_, ?_⟩
  · rw [replaceFirst_append_headNone vendorAt stem _ (fun c hc rest =>
      vendorAt_none_head c rest (plain_spec c (hstem c hc)).1
        (plain_spec c (hstem c hc)).2.1)]
    rw [show replaceFirst vendorAt (".jpg".data) = ".jpg".data from by decide]
  · rw [replaceFirst_append_headNone wxhAt stem _ (fun c hc rest =>
      wxhAt_none_head c rest (plain_spec c (hstem c hc)).1)]
    rw [show replaceFirst wxhAt (".jpg".data) = ".jpg".data from by decide]
  · rw [replaceFirst_append_headNone bareResAt stem _ (fun c hc rest =>
      bareResAt_none_head c rest (plain_spec c (hstem c hc)).1
        (plain_spec c (hstem c hc)).2.1)]
    rw [show replaceFirst bareResAt (".jpg".data) = ".jpg".data from by decide]
  · rw [replaceFirst_append_headNone densityAt stem _ (fun c hc rest =>
      densityAt_none_head c rest (plain_spec c (hstem c hc)).2.2.1)]
    rw [show replaceFirst densityAt (".jpg".data) = ".jpg".data from by decide]
  · rw [replaceFirst_append_headNone namedAt stem _ (fun c hc rest =>
      namedAt_none_head c rest (plain_spec c (hstem c hc)).1
        (plain_spec c (hstem c hc)).2.1)]
    rw [show replaceFirst namedAt (".jpg".data) = ".jpg".data from by decide]

theorem normChars_wxh (stem w h : List Char)
    (hstem : ∀ c ∈ stem, plainChar c = true)
    (hw : ∀ c ∈ w, c.isDigit = true) (hw2 : 2 ≤ w.length) (hw4 : w.length ≤ 4)
    (hh : ∀ c ∈ h, c.isDigit = true) (hh2 : 2 ≤ h.length) (hh4 : h.length ≤ 4) :
    normChars (wxhUrl stem w h) = plainUrl stem := by
  have hexp : normChars (wxhUrl stem w h) =
      replaceFirst namedAt (replaceFirst densityAt (replaceFirst bareResAt
        (replaceFirst wxhAt (replaceFirst vendorAt
          (stripQueryFragment (wxhUrl stem w h)))))) := rfl
  rw [hexp, stripQF_of_all _ (wxhUrl_chars stem w h hstem hw hh),
    step1_id stem w h hstem hw hw2 hh,
    step2_collapse stem w h hstem hw hw2 hw4 hh hh2 hh4,
    (steps_id_plain stem hstem).2.2.1,
    (steps_id_plain stem hstem).2.2.2.1,
    (steps_id_plain stem hstem).2.2.2.2]

theorem normChars_plain (stem : List Char)
    (hstem : ∀ c ∈ stem, plainChar c = true) :
    normChars (plainUrl stem) = plainUrl stem := by
  have hexp : normChars (plainUrl stem) =
      replaceFirst namedAt (replaceFirst densityAt (replaceFirst bareResAt
        (replaceFirst wxhAt (replaceFirst vendorAt
          (stripQueryFragment (plainUrl stem)))))) := rfl
  rw [hexp, stripQF_of_all _ (plainUrl_chars stem hstem),
    (steps_id_plain stem hstem).1,
    (steps_id_plain stem hstem).2.1,
    (steps_id_plain stem hstem).2.2.1,
    (steps_id_plain stem hstem).2.2.2.1,
    (steps_id_plain stem hstem).2.2.2.2]

theorem mergedImages_all_same (a b c : ImageInfo)
    (hab : normalize_image_url b.src = normalize_image_url a.src)
    (hac : normalize_image_url c.src = normalize_image_url a.src) :
    mergedImages [a] [b, c] = [a] := by
  rw [mergedImages_eq_dedup, List.singleton_append,
    dedupByNormKey, if_neg (List.not_mem_nil _),
    dedupByNormKey, if_pos (by rw [hab]; exact List.mem_cons_self _ _),
    dedupByNormKey, if_pos (by rw [hac]; exact List.mem_cons_self _ _),
    dedupByNormKey]
  exact List.take_of_length_le (by simp)

/-- C5 (amended): image URLs that differ only by a recognized
`WIDTHxHEIGHT` resolution suffix before the extension — with a stem
containing none of the characters `-`, `_`, `@`, `?`, `#`, so that no
pattern can fire inside the stem itself — all normalize to the same dedup
key (e.g. `photo-300x200.jpg`, `photo-768x512.jpg` and `photo.jpg`), and
the merge stage keeps exactly one instance among them.  When the stem
itself contains a recognized suffix, the patterns' first-occurrence-only
replacement can instead produce distinct keys (see the counterexample). -/
theorem resolution_variants_collapse (stem w h w2 h2 : List Char)
    (hstem : ∀ c ∈ stem, plainChar c = true)
    (hw : ∀ c ∈ w, c.isDigit = true) (hwa : 2 ≤ w.length) (hwb : w.length ≤ 4)
    (hh : ∀ c ∈ h, c.isDigit = true) (hha : 2 ≤ h.length) (hhb : h.length ≤ 4)
    (hw' : ∀ c ∈ w2, c.isDigit = true) (hwa' : 2 ≤ w2.length)
    (hwb' : w2.length ≤ 4)
    (hh' : ∀ c ∈ h2, c.isDigit = true) (hha' : 2 ≤ h2.length)
    (hhb' : h2.length ≤ 4) :
    normalize_image_url ⟨wxhUrl stem w h⟩ =
      normalize_image_url ⟨plainUrl stem⟩ ∧
    normalize_image_url ⟨wxhUrl stem w2 h2⟩ =
      normalize_image_url ⟨plainUrl stem⟩ ∧
    ∀ alt1 alt2 alt3 : String,
      mergedImages [⟨⟨wxhUrl stem w h⟩, alt1, 0, 0⟩]
          [⟨⟨wxhUrl stem w2 h2⟩, alt2, 0, 0⟩, ⟨⟨plainUrl stem⟩, alt3, 0, 0⟩] =
        [⟨⟨wxhUrl stem w h⟩, alt1, 0, 0⟩] := by
  have k1 : normalize_image_url ⟨wxhUrl stem w h⟩ = ⟨plainUrl stem⟩ := by
    show (⟨normChars (wxhUrl stem w h)⟩ : String) = ⟨plainUrl stem⟩
    rw [normChars_wxh stem w h hstem hw hwa hwb hh hha hhb]
  have k2 : normalize_image_url ⟨wxhUrl stem w2 h2⟩ = ⟨plainUrl stem⟩ := by
    show (⟨normChars (wxhUrl stem w2 h2)⟩ : String) = ⟨plainUrl stem⟩
    rw [normChars_wxh stem w2 h2 hstem hw' hwa' hwb' hh' hha' hhb']
  have k3 : normalize_image_url ⟨plainUrl stem⟩ = ⟨plainUrl stem⟩ := by
    show (⟨normChars (plainUrl stem)⟩ : String) = ⟨plainUrl stem⟩
    rw [normChars_plain stem hstem]
  refine ⟨k1.trans k3.symm, k2.trans k3.symm, ?_⟩
  intro alt1 alt2 alt3
  exact mergedImages_all_same _ _ _ (k2.trans k1.symm) (k3.trans k1.symm)

/-- Witness for `resolution_variants_collapse`, at the spec's own example
family `photo-300x200.jpg` / `photo-768x512.jpg` / `photo.jpg`. -/
theorem resolution_variants_collapse_witness :
    ((∀ c ∈ ("https://x.com/photo" : String).data, plainChar c = true) ∧
     (∀ c ∈ ("300" : String).data, c.isDigit = true) ∧
     (∀ c ∈ ("768" : String).data, c.isDigit = true)) ∧
    normalize_image_url ⟨wxhUrl ("https://x.com/photo" : String).data
        ("300" : String).data ("200" : String).data⟩ =
      normalize_image_url ⟨plainUrl ("https://x.com/photo" : String).data⟩ ∧
    normalize_image_url ⟨wxhUrl ("https://x.com/photo" : String).data
        ("768" : String).data ("512" : String).data⟩ =
      normalize_image_url ⟨plainUrl ("https://x.com/photo" : String).data⟩ ∧
    mergedImages
        [⟨⟨wxhUrl ("https://x.com/photo" : String).data ("300" : String).data
            ("200" : String).data⟩, "", 0, 0⟩]
        [⟨⟨wxhUrl ("https://x.com/photo" : String).data ("768" : String).data
            ("512" : String).data⟩, "", 0, 0⟩,
         ⟨⟨plainUrl ("https://x.com/photo" : String).data⟩, "", 0, 0⟩] =
      [⟨⟨wxhUrl ("https://x.com/photo" : String).data ("300" : String).data
          ("200" : String).data⟩, "", 0, 0⟩] := by
  have main := resolution_variants_collapse ("https://x.com/photo" : String).data
    ("300" : String).data ("200" : String).data
    ("768" : String).data ("512" : String).data
    (by decide) (by decide) (by decide) (by decide)
    (by decide) (by decide) (by decide)
    (by decide) (by decide) (by decide)
    (by decide) (by decide) (by decide)
  exact ⟨⟨by decide, by decide, by decide⟩, main.1, main.2.1, main.2.2 "" "" ""⟩

/-- C5 counterexample: the two URLs below differ only by the recognized
`-300x200` resolution suffix inserted before the extension, yet they get
DIFFERENT dedup keys — each pattern replaces only its first (leftmost)
occurrence, and the stem `img-640x480` itself contains a recognized
WIDTHxHEIGHT suffix which absorbs the single replacement — so the merge
stage keeps both instances instead of exactly one. -/
theorem resolution_variants_cex :
    normalize_image_url "https://x.com/img-640x480-300x200.jpg" ≠
      normalize_image_url "https://x.com/img-640x480.jpg" ∧
    (mergedImages [⟨"https://x.com/img-640x480-300x200.jpg", "", 0, 0⟩]
        [⟨"https://x.com/img-640x480.jpg", "", 0, 0⟩]).length = 2 :=
  ⟨by decide, by decide⟩
